import Mathlib

/-!
Verification of the xenforo-to-gh-discussions migration tool.

Shallow embedding of the core subsystems — the progress/resume ledger
(`internal/progress`), the filename sanitizer and path validator
(`internal/attachments/sanitizer.go`), the attachment link rewriter
(`internal/attachments/downloader.go`), the BB-code to Markdown converter
(`internal/bbcode`), and the retry executors (`internal/github/client.go`,
`internal/xenforo/client.go`) — together with theorems checking the
specification's claims against them.

Strings are modelled as `List Char` (`Str`); Go string functions used by the
code (`strings.Contains`, `strings.ReplaceAll`, `strings.TrimSpace`,
`strings.ToLower`, and the `path/filepath` lexical functions) are given
character-level definitions with the same semantics on the ASCII inputs the
program manipulates.
-/

namespace XFGH

abbrev Str := List Char

/-- ASCII whitespace, as recognised by Go's `unicode.IsSpace` on ASCII input
(the tool's filenames and markup are ASCII; we model the ASCII fragment). -/
def isSpaceChar (c : Char) : Bool :=
  c = ' ' || c = '\t' || c = '\n' || c = '\x0b' || c = '\x0c' || c = '\r'

/-- `strings.TrimSpace`, left side. -/
def trimLeft (l : Str) : Str := l.dropWhile isSpaceChar

/-- `strings.TrimSpace`, right side. -/
def trimRight (l : Str) : Str := (l.reverse.dropWhile isSpaceChar).reverse

/-- Go `strings.TrimSpace`. -/
def trimSpace (l : Str) : Str := trimRight (trimLeft l)

/-- Go `strings.Trim(s, cutset)` for a character cutset. -/
def trimCutset (cut : List Char) (l : Str) : Str :=
  ((l.dropWhile (cut.contains ·)).reverse.dropWhile (cut.contains ·)).reverse

/-- ASCII `strings.ToLower`. -/
def toLowerChar (c : Char) : Char :=
  if 'A' ≤ c ∧ c ≤ 'Z' then Char.ofNat (c.toNat + 32) else c

def toLower (l : Str) : Str := l.map toLowerChar

/-- Go `strings.Contains s pat`: some position of `l` starts with `pat`. -/
def containsSubstr (pat : Str) : Str → Bool
  | [] => pat.isEmpty
  | c :: rest => pat.isPrefixOf (c :: rest) || containsSubstr pat rest

/-- Split `l` at the first occurrence of `pat` (`pat` nonempty in all uses):
returns the part before the match and the part after it.  This is the
splitting a leftmost non-greedy regex match performs. -/
def splitAtFirst (pat : Str) : Str → Option (Str × Str)
  | [] => none
  | c :: rest =>
    if pat.isPrefixOf (c :: rest) then
      some ([], (c :: rest).drop pat.length)
    else
      match splitAtFirst pat rest with
      | some (pre, post) => some (c :: pre, post)
      | none => none

/-- Go `strings.ReplaceAll` (fuelled; fuel ≥ input length suffices since each
step consumes at least one character). -/
def replaceAllFuel (pat rep : Str) : Nat → Str → Str
  | 0, l => l
  | _ + 1, [] => []
  | fuel + 1, c :: rest =>
    if pat.isPrefixOf (c :: rest) ∧ ¬ pat.isEmpty then
      rep ++ replaceAllFuel pat rep fuel ((c :: rest).drop pat.length)
    else
      c :: replaceAllFuel pat rep fuel rest

def replaceAll (pat rep l : Str) : Str := replaceAllFuel pat rep l.length l

/-- Go `strings.Split l on a single-character separator`. -/
def splitOnChar (sep : Char) : Str → List Str
  | [] => [[]]
  | c :: rest =>
    let r := splitOnChar sep rest
    if c = sep then [] :: r
    else
      match r with
      | [] => [[c]]
      | s :: ss => (c :: s) :: ss

/-- Join segments with a separator character (inverse of `splitOnChar`). -/
def joinWithChar (sep : Char) : List Str → Str
  | [] => []
  | [s] => s
  | s :: rest => s ++ sep :: joinWithChar sep rest

/-! ## Progress ledger (`internal/progress/tracker.go`, ctx variant)

The tracker state is `MigrationProgress`; `markCompleted`/`markFailed` embed
`Tracker.MarkCompleted`/`Tracker.MarkFailed` (the variant with the
duplicate-membership guard, the one that typechecks against
`persistence.go`'s `Save(ctx, …)` signature); `save` only touches
`LastUpdated`, modelled by the `now` argument. -/

structure MigrationProgress where
  lastThreadID : Int
  completedThreads : List Int
  failedThreads : List Int
  lastUpdated : Int
  deriving DecidableEq, Repr

structure Thread where
  threadID : Int
  title : Str
  nodeID : Int
  username : Str
  postDate : Int
  firstPostID : Int
  replyCount : Int
  deriving DecidableEq, Repr

/-- `Tracker.MarkCompleted`: no-op if the id is already recorded; otherwise
append it, update `LastThreadID`, and save (which stamps `LastUpdated`). -/
def markCompleted (now threadID : Int) (p : MigrationProgress) : MigrationProgress :=
  if threadID ∈ p.completedThreads then p
  else
    { lastThreadID := threadID
      completedThreads := p.completedThreads ++ [threadID]
      failedThreads := p.failedThreads
      lastUpdated := now }

/-- `Tracker.MarkFailed`: no-op if the id is already recorded; otherwise
append it and save. -/
def markFailed (now threadID : Int) (p : MigrationProgress) : MigrationProgress :=
  if threadID ∈ p.failedThreads then p
  else
    { lastThreadID := p.lastThreadID
      completedThreads := p.completedThreads
      failedThreads := p.failedThreads ++ [threadID]
      lastUpdated := now }

/-- `Tracker.FilterCompletedThreads`: build the lookup map from the completed
list exactly as the Go code does (`completed[id] = true` for each id), then
keep the threads whose id does not look up to `true`. -/
def filterCompletedThreads (p : MigrationProgress) (threads : List Thread) : List Thread :=
  let completed : Int → Bool :=
    p.completedThreads.foldl (fun m id => fun x => if x = id then true else m x)
      (fun _ => false)
  threads.filter (fun t => ! completed t.threadID)

theorem lookup_foldl (l : List Int) (m : Int → Bool) (x : Int) :
    (l.foldl (fun m id => fun x => if x = id then true else m x) m) x
      = (m x || decide (x ∈ l)) := by
  induction l generalizing m with
  | nil => simp
  | cons id rest ih =>
    simp only [List.foldl_cons, ih, List.mem_cons]
    by_cases h : x = id <;> simp [h]

/-- C1.  Marking a thread completed is idempotent: a second `MarkCompleted`
with the same id (at any later save time) leaves the state unchanged, and a
`MarkFailed` for an id already in the failed set is a no-op. -/
theorem markCompleted_idempotent (p : MigrationProgress) (t₁ t₂ now threadID : Int) :
    markCompleted t₂ threadID (markCompleted t₁ threadID p) = markCompleted t₁ threadID p
      ∧ (threadID ∈ p.failedThreads → markFailed now threadID p = p) := by
  constructor
  · by_cases h : threadID ∈ p.completedThreads
    · simp [markCompleted, h]
    · simp [markCompleted, h]
  · intro h
    simp [markFailed, h]

/-- Witness for C1 at a concrete ledger state. -/
theorem markCompleted_idempotent_witness :
    markFailed 9 5 ⟨0, [1], [5], 0⟩ = ⟨0, [1], [5], 0⟩ :=
  (markCompleted_idempotent ⟨0, [1], [5], 0⟩ 7 8 9 5).2 (by decide)

/-- C3.  `FilterCompletedThreads` returns exactly the threads whose id is not
in the completed set, and the failed set plays no role in the filtering. -/
theorem filterCompletedThreads_spec (p : MigrationProgress) (threads : List Thread) :
    filterCompletedThreads p threads
        = threads.filter (fun t => decide (t.threadID ∉ p.completedThreads))
      ∧ ∀ f : List Int,
        filterCompletedThreads
            { lastThreadID := p.lastThreadID, completedThreads := p.completedThreads,
              failedThreads := f, lastUpdated := p.lastUpdated } threads
          = filterCompletedThreads p threads := by
  refine ⟨?_, fun f => rfl⟩
  unfold filterCompletedThreads
  refine List.filter_congr (fun t _ => ?_)
  rw [lookup_foldl]
  simp

/-! ## Filename sanitizer and path validator
(`internal/attachments/sanitizer.go`, Unix `path/filepath` semantics) -/

/-- `filepath.IsAbs` on Unix: the path starts with the separator. -/
def isAbsStr (p : Str) : Bool :=
  match p with
  | c :: _ => c = '/'
  | [] => false

/-- Resolution of a `..` segment against the (reversed) accumulator: pop the
previous segment, stay at the root of an absolute path, and keep the `..` at
the front of a relative path. -/
def cleanPop (abs : Bool) : List Str → List Str
  | [] => if abs then [] else [['.', '.']]
  | s :: rest => if s = ['.', '.'] then ['.', '.'] :: s :: rest else rest

/-- One step of lexical cleaning: `acc` holds the resolved segments in
reverse order.  Empty and `.` segments are dropped; `..` is resolved by
`cleanPop`. -/
def cleanStep (abs : Bool) (acc : List Str) (seg : Str) : List Str :=
  if seg = [] ∨ seg = ['.'] then acc
  else if seg = ['.', '.'] then cleanPop abs acc
  else seg :: acc

def cleanSegs (abs : Bool) (segs : List Str) : List Str :=
  (segs.foldl (cleanStep abs) []).reverse

/-- Rebuild a path string from its absolute flag and clean segments
(`filepath.Clean` returns `"."` for an empty relative result and `"/"` for an
empty absolute one). -/
def renderPath (abs : Bool) (segs : List Str) : Str :=
  if abs then '/' :: joinWithChar '/' segs
  else if segs = [] then ['.']
  else joinWithChar '/' segs

/-- Go `filepath.Clean` (Unix), via segment-wise lexical resolution. -/
def cleanPath (p : Str) : Str :=
  renderPath (isAbsStr p) (cleanSegs (isAbsStr p) (splitOnChar '/' p))

/-- Go `filepath.Base` (Unix): empty path gives `"."`; otherwise trailing
separators are stripped and the last element is returned (`"/"` if the path
was all separators). -/
def basePath (p : Str) : Str :=
  if p = [] then ['.']
  else
    let q := (p.reverse.dropWhile (· = '/')).reverse
    if q = [] then ['/']
    else (q.reverse.takeWhile (· ≠ '/')).reverse

/-- Go `filepath.IsLocal` (Unix): nonempty, not absolute, and the cleaned
path neither is `".."` nor starts with `"../"`. -/
def isLocalPath (p : Str) : Bool :=
  if p = [] then false
  else if isAbsStr p then false
  else
    let c := cleanPath p
    !(decide (c = ['.', '.']) || ['.', '.', '/'].isPrefixOf c)

def unnamedFile : Str := "unnamed_file".toList

/-- The filesystem-unsafe characters `FileSanitizer.SanitizeFilename`
replaces with underscores. -/
def unsafeChars : List Char := ['/', '\\', ':', '*', '?', '"', '<', '>', '|']

/-- The sequence of `strings.ReplaceAll(filename, char, "_")` calls; each is
a single-character replacement, i.e. a map over the characters. -/
def replaceUnsafe (l : Str) : Str :=
  unsafeChars.foldl (fun s t => s.map (fun d => if d = t then '_' else d)) l

/-- `FileSanitizer.SanitizeFilename`: empty input gives the placeholder;
non-local input is reduced to its base name; unsafe characters become
underscores; the result is trimmed, with the placeholder again substituted
if trimming leaves nothing. -/
def sanitizeFilename (filename : Str) : Str :=
  if filename = [] then unnamedFile
  else
    let f₁ := if ¬ isLocalPath filename then basePath filename else filename
    let f₂ := replaceUnsafe f₁
    let f₃ := trimSpace f₂
    if f₃ = [] then unnamedFile else f₃

theorem mem_foldl_replace (cs : List Char) (l : Str) (c : Char)
    (h : c ∈ cs.foldl (fun s t => s.map (fun d => if d = t then '_' else d)) l) :
    c = '_' ∨ (c ∈ l ∧ c ∉ cs) := by
  induction cs generalizing l with
  | nil => exact Or.inr ⟨h, by simp⟩
  | cons t ts ih =>
    rcases ih _ h with h' | ⟨hmem, hnot⟩
    · exact Or.inl h'
    · rcases List.mem_map.mp hmem with ⟨d, hd, hde⟩
      by_cases hdt : d = t
      · simp [hdt] at hde
        exact Or.inl hde.symm
      · simp [hdt] at hde
        subst hde
        refine Or.inr ⟨hd, ?_⟩
        simp [hdt, hnot]

theorem mem_of_mem_trimSpace {c : Char} {l : Str} (h : c ∈ trimSpace l) : c ∈ l := by
  unfold trimSpace trimRight trimLeft at h
  have h₀ := List.mem_reverse.mp h
  have h₁ := (List.dropWhile_suffix (l := (l.dropWhile isSpaceChar).reverse) isSpaceChar).subset h₀
  exact (List.dropWhile_suffix isSpaceChar).subset (List.mem_reverse.mp h₁)

theorem head?_dropWhile_not (p : Char → Bool) (l : Str) {c : Char}
    (h : (l.dropWhile p).head? = some c) : p c = false := by
  induction l with
  | nil => simp [List.dropWhile] at h
  | cons a rest ih =>
    rw [List.dropWhile_cons] at h
    by_cases hp : p a
    · simp [hp] at h
      exact ih h
    · simp [hp] at h
      subst h
      simpa using hp

theorem head?_eq_of_isPrefix {y x : Str} (h : y <+: x) (hne : y ≠ []) : y.head? = x.head? := by
  rcases h with ⟨t, rfl⟩
  cases y with
  | nil => exact absurd rfl hne
  | cons a rest => simp

theorem trimSpace_head (l : Str) {c : Char} (h : (trimSpace l).head? = some c) :
    isSpaceChar c = false := by
  unfold trimSpace trimRight at h
  have hpre : ((trimLeft l).reverse.dropWhile isSpaceChar).reverse <+: trimLeft l := by
    have hs := List.dropWhile_suffix (l := (trimLeft l).reverse) isSpaceChar
    rcases hs with ⟨t, ht⟩
    refine ⟨t.reverse, ?_⟩
    have := congrArg List.reverse ht
    simpa using this
  have hne : ((trimLeft l).reverse.dropWhile isSpaceChar).reverse ≠ [] := by
    intro hnil
    rw [hnil] at h
    simp at h
  rw [head?_eq_of_isPrefix hpre hne] at h
  exact head?_dropWhile_not isSpaceChar l h

theorem trimSpace_getLast (l : Str) {c : Char} (h : (trimSpace l).getLast? = some c) :
    isSpaceChar c = false := by
  unfold trimSpace trimRight at h
  rw [← List.head?_reverse, List.reverse_reverse] at h
  exact head?_dropWhile_not isSpaceChar (trimLeft l).reverse h

theorem trimSpace_eq_nil_all_space {l : Str} (h : trimSpace l = []) :
    ∀ c ∈ l, isSpaceChar c = true := by
  unfold trimSpace trimRight trimLeft at h
  have h₁ : (l.dropWhile isSpaceChar).reverse.dropWhile isSpaceChar = [] := by
    have := congrArg List.reverse h
    simpa using this
  have h₂ := List.dropWhile_eq_nil_iff.mp h₁
  intro c hc
  have hc' : c ∈ l.takeWhile isSpaceChar ++ l.dropWhile isSpaceChar := by
    rw [List.takeWhile_append_dropWhile]
    exact hc
  rcases List.mem_append.mp hc' with h₃ | h₃
  · exact List.mem_takeWhile_imp h₃
  · exact h₂ c (List.mem_reverse.mpr h₃)

theorem basePath_no_sep {l : Str} (hne : l ≠ []) (hs : '/' ∉ l) : basePath l = l := by
  unfold basePath
  rw [if_neg hne]
  have hdrop : l.reverse.dropWhile (· = '/') = l.reverse := by
    cases hrev : l.reverse with
    | nil => simp
    | cons a rest =>
      have ha : a ∈ l := by
        have : a ∈ l.reverse := by rw [hrev] ; exact List.mem_cons_self a rest
        exact List.mem_reverse.mp this
      have : ¬ (a = '/') := fun hEq => hs (hEq ▸ ha)
      simp [List.dropWhile_cons, this]
  rw [hdrop]
  simp only [List.reverse_reverse]
  rw [if_neg hne]
  have htake : l.reverse.takeWhile (· ≠ '/') = l.reverse := by
    rw [List.takeWhile_eq_self_iff]
    intro x hx
    have : x ∈ l := List.mem_reverse.mp hx
    simp
    exact fun hEq => hs (hEq ▸ this)
  rw [htake, List.reverse_reverse]

theorem replaceUnsafe_of_no_unsafe {l : Str} (h : ∀ c ∈ l, c ∉ unsafeChars) :
    replaceUnsafe l = l := by
  unfold replaceUnsafe
  have key : ∀ cs : List Char, (∀ t ∈ cs, t ∈ unsafeChars) →
      cs.foldl (fun s t => s.map (fun d => if d = t then '_' else d)) l = l := by
    intro cs hcs
    induction cs with
    | nil => rfl
    | cons t ts ih =>
      have hmap : l.map (fun d => if d = t then '_' else d) = l := by
        conv_rhs => rw [← List.map_id l]
        refine List.map_congr_left (fun d hd => ?_)
        have hdt : d ≠ t := fun hEq => (h d hd) (hEq ▸ hcs t (List.mem_cons_self t ts))
        simp [hdt]
      rw [List.foldl_cons, hmap]
      exact ih (fun u hu => hcs u (List.mem_cons_of_mem t hu))
  exact key unsafeChars (fun t ht => ht)

/-- C10.  `SanitizeFilename` always yields a nonempty name free of the
filesystem-unsafe characters, with no whitespace at either end; empty or
whitespace-only input yields the fixed placeholder; in particular the result
contains no path separator, so it cannot add a path component when joined. -/
theorem sanitizeFilename_spec (f : Str) :
    sanitizeFilename f ≠ []
      ∧ (∀ c ∈ unsafeChars, c ∉ sanitizeFilename f)
      ∧ (∀ c, (sanitizeFilename f).head? = some c → isSpaceChar c = false)
      ∧ (∀ c, (sanitizeFilename f).getLast? = some c → isSpaceChar c = false)
      ∧ (trimSpace f = [] → sanitizeFilename f = unnamedFile)
      ∧ '/' ∉ sanitizeFilename f := by
  have placeholder_ok :
      unnamedFile ≠ []
        ∧ (∀ c ∈ unsafeChars, c ∉ unnamedFile)
        ∧ (∀ c, unnamedFile.head? = some c → isSpaceChar c = false)
        ∧ (∀ c, unnamedFile.getLast? = some c → isSpaceChar c = false)
        ∧ '/' ∉ unnamedFile := by
    refine ⟨by decide, by decide, ?_, ?_, by decide⟩
    · intro c h
      have : c = 'u' := by
        have h' : some 'u' = some c := h
        exact (Option.some.injEq _ _ ▸ h').symm
      subst this ; decide
    · intro c h
      have : c = 'e' := by
        have h' : some 'e' = some c := h
        exact (Option.some.injEq _ _ ▸ h').symm
      subst this ; decide
  by_cases hne : f = []
  · subst hne
    have hval : sanitizeFilename ([] : Str) = unnamedFile := rfl
    rw [hval]
    exact ⟨placeholder_ok.1, placeholder_ok.2.1, placeholder_ok.2.2.1,
      placeholder_ok.2.2.2.1, fun _ => rfl, placeholder_ok.2.2.2.2⟩
  · have hval : sanitizeFilename f =
        (if trimSpace (replaceUnsafe
            (if ¬ isLocalPath f then basePath f else f)) = [] then unnamedFile
          else trimSpace (replaceUnsafe (if ¬ isLocalPath f then basePath f else f))) := by
      unfold sanitizeFilename
      rw [if_neg hne]
    set f₁ := if ¬ isLocalPath f then basePath f else f with hf₁
    by_cases h₃ : trimSpace (replaceUnsafe f₁) = []
    · rw [hval, if_pos h₃]
      refine ⟨placeholder_ok.1, placeholder_ok.2.1, placeholder_ok.2.2.1,
        placeholder_ok.2.2.2.1, fun _ => rfl, placeholder_ok.2.2.2.2⟩
    · rw [hval, if_neg h₃]
      have hmem : ∀ c ∈ unsafeChars, c ∉ trimSpace (replaceUnsafe f₁) := by
        intro c hc hmem
        have h₄ := mem_of_mem_trimSpace hmem
        rcases mem_foldl_replace unsafeChars f₁ c h₄ with h₅ | ⟨_, h₅⟩
        · subst h₅ ; revert hc ; decide
        · exact h₅ hc
      refine ⟨h₃, hmem, fun c h => trimSpace_head _ h, fun c h => trimSpace_getLast _ h,
        ?_, hmem '/' (by decide)⟩
      intro hw
      exfalso
      apply h₃
      have hspace := trimSpace_eq_nil_all_space hw
      have hsep : '/' ∉ f := by
        intro hmem
        have := hspace '/' hmem
        simp [isSpaceChar] at this
      have hbase : basePath f = f := basePath_no_sep hne hsep
      have hf₁f : f₁ = f := by
        rw [hf₁]
        by_cases hloc : isLocalPath f <;> simp [hloc, hbase]
      have hnoUnsafe : ∀ c ∈ f, c ∉ unsafeChars := by
        intro c hc hcu
        have h₁ := hspace c hc
        have h₂ : ∀ d ∈ unsafeChars, isSpaceChar d = false := by decide
        rw [h₂ c hcu] at h₁
        exact Bool.false_ne_true h₁
      rw [hf₁f, replaceUnsafe_of_no_unsafe hnoUnsafe, hw]

/-- Witness for C10: whitespace-only input yields the placeholder. -/
theorem sanitizeFilename_spec_witness :
    sanitizeFilename ("   ".toList) = unnamedFile :=
  (sanitizeFilename_spec ("   ".toList)).2.2.2.2.1 (by decide)

/-! ### `FileSanitizer.ValidatePath` -/

/-- `filepath.Abs`: absolute paths are cleaned, relative ones are joined to
the working directory and cleaned (`Clean(Join(wd, path))`). -/
def absPath (cwd p : Str) : Str :=
  if isAbsStr p then cleanPath p else cleanPath (cwd ++ '/' :: p)

/-- The nonempty segments of a path, the unit `filepath.Rel` compares. -/
def segsOfPath (p : Str) : List Str :=
  (splitOnChar '/' p).filter (· ≠ [])

/-- Strip the common leading segments of two paths (the core of
`filepath.Rel`). -/
def dropCommon : List Str → List Str → List Str × List Str
  | a :: as, b :: bs => if a = b then dropCommon as bs else (a :: as, b :: bs)
  | as, bs => (as, bs)

/-- `filepath.Rel` on two cleaned absolute paths: one `..` per remaining
base segment, then the remaining target segments. -/
def relSegs (b t : List Str) : List Str :=
  ((dropCommon b t).1.map fun _ => ['.', '.']) ++ (dropCommon b t).2

def relPathStr (base targ : Str) : Str :=
  let r := relSegs (segsOfPath base) (segsOfPath targ)
  if r = [] then ['.'] else joinWithChar '/' r

inductive PathCheck where
  | ok
  | traversal
  | absolute
  deriving DecidableEq, Repr

/-- `FileSanitizer.ValidatePath`: clean both paths, make them absolute,
compute the relative path from base to file, then reject if it contains a
`..` segment (path traversal) or starts with the separator. -/
def validatePath (cwd filePath baseDir : Str) : PathCheck :=
  let cleanFilePath := cleanPath filePath
  let cleanBaseDir := cleanPath baseDir
  let absBaseDir := absPath cwd cleanBaseDir
  let absFilePath := absPath cwd cleanFilePath
  let relPath := relPathStr absBaseDir absFilePath
  if (splitOnChar '/' relPath).any (· = ['.', '.']) then .traversal
  else if isAbsStr relPath then .absolute
  else .ok

/-- Go `filepath.Join` of two elements: empty elements are dropped, the rest
joined with the separator, and the result cleaned (`Join()` of no nonempty
element is `""`). -/
def joinPath (a b : Str) : Str :=
  if a = [] then (if b = [] then [] else cleanPath b)
  else if b = [] then cleanPath a
  else cleanPath (a ++ '/' :: b)

theorem splitOnChar_ne_nil (sep : Char) (l : Str) : splitOnChar sep l ≠ [] := by
  induction l with
  | nil => simp [splitOnChar]
  | cons c rest ih =>
    unfold splitOnChar
    by_cases h : c = sep
    · simp [h]
    · simp only [h, if_false]
      rcases hr : splitOnChar sep rest with _ | ⟨s, ss⟩
      · simp
      · simp

theorem no_sep_mem_splitOnChar (sep : Char) (l : Str) :
    ∀ s ∈ splitOnChar sep l, sep ∉ s := by
  induction l with
  | nil =>
    intro s hs
    simp [splitOnChar] at hs
    simp [hs]
  | cons c rest ih =>
    intro s hs
    unfold splitOnChar at hs
    by_cases h : c = sep
    · simp only [h, if_true] at hs
      rcases List.mem_cons.mp hs with h' | h'
      · simp [h']
      · exact ih s h'
    · simp only [h, if_false] at hs
      rcases hr : splitOnChar sep rest with _ | ⟨t, ts⟩
      · exact absurd hr (splitOnChar_ne_nil sep rest)
      · rw [hr] at hs
        rcases List.mem_cons.mp hs with h' | h'
        · subst h'
          intro hmem
          rcases List.mem_cons.mp hmem with h'' | h''
          · exact h h''.symm
          · exact ih t (by rw [hr] ; exact List.mem_cons_self t ts) h''
        · exact ih s (by rw [hr] ; exact List.mem_cons_of_mem t h')

theorem splitOnChar_no_sep {sep : Char} {l : Str} (h : sep ∉ l) :
    splitOnChar sep l = [l] := by
  induction l with
  | nil => rfl
  | cons c rest ih =>
    have hc : ¬ (c = sep) := fun hEq => h (hEq ▸ List.mem_cons_self c rest)
    have hrest : sep ∉ rest := fun hmem => h (List.mem_cons_of_mem c hmem)
    unfold splitOnChar
    simp only [hc, if_false, ih hrest]

theorem splitOnChar_cons (sep c : Char) (rest : Str) :
    splitOnChar sep (c :: rest) =
      if c = sep then [] :: splitOnChar sep rest
      else
        match splitOnChar sep rest with
        | [] => [[c]]
        | s :: ss => (c :: s) :: ss := rfl

theorem splitOnChar_append (sep : Char) (x y : Str) :
    splitOnChar sep (x ++ sep :: y) = splitOnChar sep x ++ splitOnChar sep y := by
  induction x with
  | nil =>
    rw [List.nil_append, splitOnChar_cons]
    simp [splitOnChar]
  | cons c rest ih =>
    rw [List.cons_append, splitOnChar_cons, splitOnChar_cons sep c rest]
    by_cases h : c = sep
    · simp [h, ih]
    · rcases hr : splitOnChar sep rest with _ | ⟨t, ts⟩
      · exact absurd hr (splitOnChar_ne_nil sep rest)
      · simp only [h, if_false, ih, hr]
        simp

theorem split_join_roundtrip {segs : List Str} (hne : segs ≠ [])
    (hfree : ∀ s ∈ segs, '/' ∉ s) :
    splitOnChar '/' (joinWithChar '/' segs) = segs := by
  induction segs with
  | nil => exact absurd rfl hne
  | cons s rest ih =>
    cases rest with
    | nil =>
      show splitOnChar '/' s = [s]
      exact splitOnChar_no_sep (hfree s (List.mem_cons_self s []))
    | cons t ts =>
      have hjoin : joinWithChar '/' (s :: t :: ts) = s ++ '/' :: joinWithChar '/' (t :: ts) := rfl
      rw [hjoin, splitOnChar_append,
        splitOnChar_no_sep (hfree s (List.mem_cons_self s (t :: ts))),
        ih (by simp) (fun u hu => hfree u (List.mem_cons_of_mem s hu))]
      rfl

theorem dropCommon_fst_nil_iff (b t : List Str) :
    (dropCommon b t).1 = [] ↔ b <+: t := by
  induction b generalizing t with
  | nil =>
    cases t <;> simp [dropCommon]
  | cons a as ih =>
    cases t with
    | nil => simp [dropCommon]
    | cons c cs =>
      unfold dropCommon
      by_cases h : a = c
      · subst h
        rw [if_pos rfl]
        rw [ih cs]
        exact (List.prefix_cons_inj a).symm
      · rw [if_neg h]
        constructor
        · intro hp
          simp at hp
        · intro hp
          exact absurd (List.cons_prefix_cons.mp hp).1 h

theorem dropCommon_snd_suffix (b t : List Str) : (dropCommon b t).2 <:+ t := by
  induction b generalizing t with
  | nil => cases t <;> simp [dropCommon]
  | cons a as ih =>
    cases t with
    | nil => simp [dropCommon]
    | cons c cs =>
      unfold dropCommon
      by_cases h : a = c
      · simp only [if_pos h]
        exact (ih cs).trans (List.suffix_cons c cs)
      · simp [if_neg h]

theorem dropCommon_self_append (b e : List Str) : dropCommon b (b ++ e) = ([], e) := by
  induction b with
  | nil => cases e <;> simp [dropCommon]
  | cons a as ih => simpa [dropCommon] using ih

theorem mem_cleanPop {a : Bool} {acc : List Str} {s : Str} (h : s ∈ cleanPop a acc) :
    s ∈ acc ∨ s = ['.', '.'] := by
  cases acc with
  | nil =>
    by_cases ha : a = true
    · subst ha ; simp [cleanPop] at h
    · have ha' : a = false := by simpa using ha
      subst ha'
      simp [cleanPop] at h
      exact Or.inr h
  | cons x xs =>
    by_cases hx : x = ['.', '.']
    · simp only [cleanPop, if_pos hx] at h
      rcases List.mem_cons.mp h with h' | h'
      · exact Or.inr h'
      · exact Or.inl h'
    · simp only [cleanPop, if_neg hx] at h
      exact Or.inl (List.mem_cons_of_mem x h)

theorem mem_cleanStep {a : Bool} {acc : List Str} {seg s : Str}
    (h : s ∈ cleanStep a acc seg) : s ∈ acc ∨ s = seg ∨ s = ['.', '.'] := by
  unfold cleanStep at h
  by_cases h₁ : seg = [] ∨ seg = ['.']
  · rw [if_pos h₁] at h
    exact Or.inl h
  · rw [if_neg h₁] at h
    by_cases h₂ : seg = ['.', '.']
    · rw [if_pos h₂] at h
      rcases mem_cleanPop h with h' | h'
      · exact Or.inl h'
      · exact Or.inr (Or.inr h')
    · rw [if_neg h₂] at h
      rcases List.mem_cons.mp h with h' | h'
      · exact Or.inr (Or.inl h')
      · exact Or.inl h'

theorem mem_cleanSegs {a : Bool} {segs : List Str} {s : Str}
    (h : s ∈ cleanSegs a segs) : s ∈ segs ∨ s = ['.', '.'] := by
  have key : ∀ (l : List Str) (acc : List Str), s ∈ l.foldl (cleanStep a) acc →
      s ∈ acc ∨ s ∈ l ∨ s = ['.', '.'] := by
    intro l
    induction l with
    | nil => intro acc h ; exact Or.inl h
    | cons seg rest ih =>
      intro acc h
      rcases ih (cleanStep a acc seg) h with h' | h' | h'
      · rcases mem_cleanStep h' with h'' | h'' | h''
        · exact Or.inl h''
        · exact Or.inr (Or.inl (h'' ▸ List.mem_cons_self seg rest))
        · exact Or.inr (Or.inr h'')
      · exact Or.inr (Or.inl (List.mem_cons_of_mem seg h'))
      · exact Or.inr (Or.inr h')
  unfold cleanSegs at h
  rcases key segs [] (List.mem_reverse.mp h) with h' | h' | h'
  · simp at h'
  · exact Or.inl h'
  · exact Or.inr h'

/-- A segment surviving absolute cleaning: nonempty and not a dot segment. -/
def goodSeg (s : Str) : Prop := s ≠ [] ∧ s ≠ ['.'] ∧ s ≠ ['.', '.']

theorem cleanStep_push {a : Bool} {acc : List Str} {s : Str} (h : goodSeg s) :
    cleanStep a acc s = s :: acc := by
  unfold cleanStep
  rw [if_neg (by rintro (h' | h') ; exact h.1 h' ; exact h.2.1 h'), if_neg h.2.2]

theorem foldl_cleanStep_all_good {a : Bool} {l : List Str}
    (hl : ∀ s ∈ l, goodSeg s) (acc : List Str) :
    l.foldl (cleanStep a) acc = l.reverse ++ acc := by
  induction l generalizing acc with
  | nil => simp
  | cons seg rest ih =>
    rw [List.foldl_cons, cleanStep_push (hl seg (List.mem_cons_self seg rest)),
      ih (fun s hs => hl s (List.mem_cons_of_mem seg hs))]
    simp

theorem cleanSegs_fix {a : Bool} {l : List Str} (hl : ∀ s ∈ l, goodSeg s) :
    cleanSegs a l = l := by
  unfold cleanSegs
  rw [foldl_cleanStep_all_good hl []]
  simp

theorem cleanSegs_true_good (segs : List Str) : ∀ s ∈ cleanSegs true segs, goodSeg s := by
  have key : ∀ (l acc : List Str), (∀ s ∈ acc, goodSeg s) →
      ∀ s ∈ l.foldl (cleanStep true) acc, goodSeg s := by
    intro l
    induction l with
    | nil => intro acc hacc s hs ; exact hacc s hs
    | cons seg rest ih =>
      intro acc hacc s hs
      refine ih (cleanStep true acc seg) ?_ s hs
      intro u hu
      unfold cleanStep at hu
      by_cases h₁ : seg = [] ∨ seg = ['.']
      · rw [if_pos h₁] at hu
        exact hacc u hu
      · rw [if_neg h₁] at hu
        by_cases h₂ : seg = ['.', '.']
        · rw [if_pos h₂] at hu
          cases acc with
          | nil => simp [cleanPop] at hu
          | cons x xs =>
            have hx : x ≠ ['.', '.'] := (hacc x (List.mem_cons_self x xs)).2.2
            simp only [cleanPop, if_neg hx] at hu
            exact hacc u (List.mem_cons_of_mem x hu)
        · rw [if_neg h₂] at hu
          rcases List.mem_cons.mp hu with h' | h'
          · subst h'
            exact ⟨fun h' => h₁ (Or.inl h'), fun h' => h₁ (Or.inr h'), h₂⟩
          · exact hacc u h'
  intro s hs
  unfold cleanSegs at hs
  exact key segs [] (by simp) s (List.mem_reverse.mp hs)

theorem cleanSegs_append_good {a : Bool} {segs : List Str} {s : Str} (h : goodSeg s) :
    cleanSegs a (segs ++ [s]) = cleanSegs a segs ++ [s] := by
  unfold cleanSegs
  rw [List.foldl_append, List.foldl_cons, List.foldl_nil, cleanStep_push h]
  simp

theorem cleanSegs_append_dot {a : Bool} {segs : List Str} :
    cleanSegs a (segs ++ [['.']]) = cleanSegs a segs := by
  unfold cleanSegs
  rw [List.foldl_append, List.foldl_cons, List.foldl_nil]
  have : cleanStep a (segs.foldl (cleanStep a) []) ['.'] = segs.foldl (cleanStep a) [] := by
    unfold cleanStep
    rw [if_pos (Or.inr rfl)]
  rw [this]

theorem cleanSegs_cons_nil {a : Bool} {segs : List Str} :
    cleanSegs a ([] :: segs) = cleanSegs a segs := by
  unfold cleanSegs
  rw [List.foldl_cons]
  have : cleanStep a [] [] = [] := by
    unfold cleanStep
    rw [if_pos (Or.inl rfl)]
  rw [this]

theorem cleanSegs_free {a : Bool} {segs : List Str} (hf : ∀ s ∈ segs, '/' ∉ s) :
    ∀ s ∈ cleanSegs a segs, '/' ∉ s := by
  intro s hs
  rcases mem_cleanSegs hs with h | h
  · exact hf s h
  · subst h ; decide

theorem isAbsStr_append {base rest : Str} (h : isAbsStr base = true) :
    isAbsStr (base ++ rest) = true := by
  cases base with
  | nil => simp [isAbsStr] at h
  | cons c cs =>
    rw [List.cons_append]
    exact h

theorem cleanPath_abs {p : Str} (h : isAbsStr p = true) :
    cleanPath p = '/' :: joinWithChar '/' (cleanSegs true (splitOnChar '/' p)) := by
  unfold cleanPath renderPath
  rw [h]
  simp

theorem isAbsStr_cleanPath {p : Str} (h : isAbsStr p = true) :
    isAbsStr (cleanPath p) = true := by
  rw [cleanPath_abs h]
  rfl

theorem split_free_of_splitOnChar (p : Str) : ∀ s ∈ splitOnChar '/' p, '/' ∉ s :=
  no_sep_mem_splitOnChar '/' p

theorem cleanPath_render_abs {segs : List Str} (hgood : ∀ s ∈ segs, goodSeg s)
    (hfree : ∀ s ∈ segs, '/' ∉ s) :
    cleanPath ('/' :: joinWithChar '/' segs) = '/' :: joinWithChar '/' segs := by
  by_cases hne : segs = []
  · subst hne ; decide
  · have habs : isAbsStr ('/' :: joinWithChar '/' segs) = true := rfl
    rw [cleanPath_abs habs]
    have hsplit : splitOnChar '/' ('/' :: joinWithChar '/' segs)
        = [] :: splitOnChar '/' (joinWithChar '/' segs) := by
      rw [splitOnChar_cons]
      simp
    rw [hsplit, split_join_roundtrip hne hfree, cleanSegs_cons_nil, cleanSegs_fix hgood]

theorem cleanPath_idem_abs {p : Str} (h : isAbsStr p = true) :
    cleanPath (cleanPath p) = cleanPath p := by
  rw [cleanPath_abs h]
  exact cleanPath_render_abs (cleanSegs_true_good _)
    (cleanSegs_free (split_free_of_splitOnChar p))

theorem segsOfPath_render_abs {segs : List Str} (hgood : ∀ s ∈ segs, goodSeg s)
    (hfree : ∀ s ∈ segs, '/' ∉ s) :
    segsOfPath ('/' :: joinWithChar '/' segs) = segs := by
  by_cases hne : segs = []
  · subst hne ; decide
  · unfold segsOfPath
    have hsplit : splitOnChar '/' ('/' :: joinWithChar '/' segs)
        = [] :: splitOnChar '/' (joinWithChar '/' segs) := by
      rw [splitOnChar_cons]
      simp
    rw [hsplit, split_join_roundtrip hne hfree]
    rw [List.filter_cons]
    simp only [decide_not]
    have : ∀ s ∈ segs, (!decide (s = [])) = true := by
      intro s hs
      simp [(hgood s hs).1]
    rw [List.filter_eq_self.mpr (by intro s hs ; simpa using (hgood s hs).1)]
    simp

theorem absPath_of_abs (cwd : Str) {p : Str} (h : isAbsStr p = true) :
    absPath cwd p = cleanPath p := by
  unfold absPath
  rw [h]
  simp

theorem sanitizeFilename_ne_nil (f : Str) : sanitizeFilename f ≠ [] := by
  unfold sanitizeFilename
  by_cases hne : f = []
  · rw [if_pos hne] ; decide
  · rw [if_neg hne]
    by_cases h₃ : trimSpace (replaceUnsafe (if ¬ isLocalPath f then basePath f else f)) = []
    · simp only [h₃, if_pos] ; decide
    · simp only [if_neg h₃] ; exact h₃

theorem sanitizeFilename_no_slash (f : Str) : '/' ∉ sanitizeFilename f := by
  unfold sanitizeFilename
  by_cases hne : f = []
  · rw [if_pos hne] ; decide
  · rw [if_neg hne]
    by_cases h₃ : trimSpace (replaceUnsafe (if ¬ isLocalPath f then basePath f else f)) = []
    · simp only [h₃, if_pos] ; decide
    · simp only [if_neg h₃]
      intro hmem
      have h₄ := mem_of_mem_trimSpace hmem
      rcases mem_foldl_replace unsafeChars _ _ h₄ with h₅ | ⟨_, h₅⟩
      · exact absurd h₅.symm (by decide)
      · exact h₅ (by decide)

/-- C2, counterexample.  `"/base/a/../b"` contains a `../` segment yet
`ValidatePath` accepts it (the join resolves back inside the base), so
"any path containing `../` segments at any position or depth" is not
rejected; and the separator-free filename `".."` survives `SanitizeFilename`
unchanged, after which join-then-validate reports a traversal error, so the
sanitize-join-validate pipeline does not succeed on every separator-free
filename. -/
theorem validatePath_claim_counterexample :
    validatePath ("/cwd".toList) ("/base/a/../b".toList) ("/base".toList) = .ok
      ∧ sanitizeFilename ("..".toList) = "..".toList
      ∧ '/' ∉ "..".toList
      ∧ validatePath ("/cwd".toList)
          (joinPath ("/base".toList) (sanitizeFilename ("..".toList)))
          ("/base".toList) = .traversal := by
  refine ⟨by decide, by decide, by decide, by decide⟩

/-- C2, amended.  (1) Whenever the cleaned absolute file path does not lie
below the cleaned absolute base directory (segment-wise prefix), `ValidatePath`
reports a traversal error; (2) for an absolute base directory and a filename
without path separators whose sanitized form is not `".."`, the
sanitize-join-validate pipeline succeeds. -/
theorem validatePath_safety (cwd fp base name : Str)
    (houts : ¬ (segsOfPath (absPath cwd (cleanPath base))
      <+: segsOfPath (absPath cwd (cleanPath fp))))
    (habs : isAbsStr base = true)
    (hsep : '/' ∉ name)
    (hdd : sanitizeFilename name ≠ ['.', '.']) :
    validatePath cwd fp base = .traversal
      ∧ validatePath cwd (joinPath base (sanitizeFilename name)) base = .ok := by
  constructor
  · -- (1): outside the base ⇒ the relative path starts with a `..` segment.
    have hB' : (dropCommon (segsOfPath (absPath cwd (cleanPath base)))
        (segsOfPath (absPath cwd (cleanPath fp)))).1 ≠ [] := by
      intro hnil
      exact houts ((dropCommon_fst_nil_iff _ _).mp hnil)
    obtain ⟨x, xs, hxs⟩ := List.exists_cons_of_ne_nil hB'
    have hrel : relSegs (segsOfPath (absPath cwd (cleanPath base)))
        (segsOfPath (absPath cwd (cleanPath fp)))
        = ['.', '.'] :: ((xs.map fun _ => ['.', '.'])
            ++ (dropCommon (segsOfPath (absPath cwd (cleanPath base)))
              (segsOfPath (absPath cwd (cleanPath fp)))).2) := by
      unfold relSegs
      rw [hxs]
      simp
    have hrne : relSegs (segsOfPath (absPath cwd (cleanPath base)))
        (segsOfPath (absPath cwd (cleanPath fp))) ≠ [] := by
      rw [hrel] ; simp
    have hfree : ∀ s ∈ relSegs (segsOfPath (absPath cwd (cleanPath base)))
        (segsOfPath (absPath cwd (cleanPath fp))), '/' ∉ s := by
      intro s hs
      unfold relSegs at hs
      rcases List.mem_append.mp hs with h | h
      · rcases List.mem_map.mp h with ⟨_, _, h'⟩
        subst h' ; decide
      · have hsF := (dropCommon_snd_suffix _ _).subset h
        unfold segsOfPath at hsF
        exact no_sep_mem_splitOnChar '/' _ s (List.mem_of_mem_filter hsF)
    have hsplit : splitOnChar '/' (relPathStr (absPath cwd (cleanPath base))
          (absPath cwd (cleanPath fp)))
        = relSegs (segsOfPath (absPath cwd (cleanPath base)))
            (segsOfPath (absPath cwd (cleanPath fp))) := by
      unfold relPathStr
      rw [if_neg hrne]
      exact split_join_roundtrip hrne hfree
    simp only [validatePath]
    rw [hsplit, hrel]
    simp
  · -- (2): the sanitized name is one clean separator-free segment.
    have hs_ne : sanitizeFilename name ≠ [] := sanitizeFilename_ne_nil name
    have hs_free : '/' ∉ sanitizeFilename name := sanitizeFilename_no_slash name
    have hbase_ne : base ≠ [] := by
      intro h ; rw [h] at habs ; simp [isAbsStr] at habs
    have hjoin : joinPath base (sanitizeFilename name)
        = cleanPath (base ++ '/' :: sanitizeFilename name) := by
      unfold joinPath
      rw [if_neg hbase_ne, if_neg hs_ne]
    have habs_raw : isAbsStr (base ++ '/' :: sanitizeFilename name) = true :=
      isAbsStr_append habs
    have hsplit_raw : splitOnChar '/' (base ++ '/' :: sanitizeFilename name)
        = splitOnChar '/' base ++ [sanitizeFilename name] := by
      rw [splitOnChar_append, splitOnChar_no_sep hs_free]
    have hBgood := cleanSegs_true_good (splitOnChar '/' base)
    have hBfree := cleanSegs_free (a := true) (split_free_of_splitOnChar base)
    have hJ : cleanPath (cleanPath (base ++ '/' :: sanitizeFilename name))
        = cleanPath (base ++ '/' :: sanitizeFilename name) := cleanPath_idem_abs habs_raw
    have habsJ : isAbsStr (cleanPath (base ++ '/' :: sanitizeFilename name)) = true :=
      isAbsStr_cleanPath habs_raw
    -- the validator's absolute base and file paths
    have habsBase : absPath cwd (cleanPath base) = cleanPath base := by
      rw [absPath_of_abs cwd (isAbsStr_cleanPath habs), cleanPath_idem_abs habs]
    have habsFile : absPath cwd (cleanPath (joinPath base (sanitizeFilename name)))
        = cleanPath (base ++ '/' :: sanitizeFilename name) := by
      rw [hjoin, hJ, absPath_of_abs cwd habsJ, hJ]
    have hsegsBase : segsOfPath (absPath cwd (cleanPath base))
        = cleanSegs true (splitOnChar '/' base) := by
      rw [habsBase, cleanPath_abs habs]
      exact segsOfPath_render_abs hBgood hBfree
    by_cases hdot : sanitizeFilename name = ['.']
    · -- the sanitized name cleans away; the relative path is "."
      have hsegsJ : cleanSegs true (splitOnChar '/' (base ++ '/' :: sanitizeFilename name))
          = cleanSegs true (splitOnChar '/' base) := by
        rw [hsplit_raw, hdot, cleanSegs_append_dot]
      have hsegsFile : segsOfPath (absPath cwd
            (cleanPath (joinPath base (sanitizeFilename name))))
          = cleanSegs true (splitOnChar '/' base) := by
        rw [habsFile, cleanPath_abs habs_raw, segsOfPath_render_abs
          (by rw [hsegsJ] ; exact hBgood) (by rw [hsegsJ] ; exact hBfree), hsegsJ]
      simp only [validatePath, relPathStr, relSegs]
      rw [hsegsFile, hsegsBase]
      have hdc : dropCommon (cleanSegs true (splitOnChar '/' base))
          (cleanSegs true (splitOnChar '/' base)) = ([], []) := by
        have := dropCommon_self_append (cleanSegs true (splitOnChar '/' base)) []
        rwa [List.append_nil] at this
      rw [hdc]
      decide
    · -- the sanitized name is one good segment appended below the base
      have hgood_s : goodSeg (sanitizeFilename name) := ⟨hs_ne, hdot, hdd⟩
      have hsegsJ : cleanSegs true (splitOnChar '/' (base ++ '/' :: sanitizeFilename name))
          = cleanSegs true (splitOnChar '/' base) ++ [sanitizeFilename name] := by
        rw [hsplit_raw, cleanSegs_append_good hgood_s]
      have hsegsFile : segsOfPath (absPath cwd
            (cleanPath (joinPath base (sanitizeFilename name))))
          = cleanSegs true (splitOnChar '/' base) ++ [sanitizeFilename name] := by
        have hgood' : ∀ s ∈ cleanSegs true (splitOnChar '/' base) ++ [sanitizeFilename name],
            goodSeg s := by
          intro s hs
          rcases List.mem_append.mp hs with h | h
          · exact hBgood s h
          · simp at h ; subst h ; exact hgood_s
        have hfree' : ∀ s ∈ cleanSegs true (splitOnChar '/' base) ++ [sanitizeFilename name],
            '/' ∉ s := by
          intro s hs
          rcases List.mem_append.mp hs with h | h
          · exact hBfree s h
          · simp at h ; subst h ; exact hs_free
        rw [habsFile, cleanPath_abs habs_raw, hsegsJ,
          segsOfPath_render_abs hgood' hfree']
      simp only [validatePath, relPathStr, relSegs]
      rw [hsegsFile, hsegsBase]
      rw [dropCommon_self_append]
      have hrel_join : joinWithChar '/' [sanitizeFilename name] = sanitizeFilename name := rfl
      simp only [List.map_nil, List.nil_append, hrel_join]
      rw [if_neg (by simp [hs_ne] : ¬ ([sanitizeFilename name] : List Str) = [])]
      rw [splitOnChar_no_sep hs_free]
      have hany : ([sanitizeFilename name] : List Str).any (· = ['.', '.']) = false := by
        simp [hdd]
      rw [hany]
      have habs_s : isAbsStr (sanitizeFilename name) = false := by
        cases hsan : sanitizeFilename name with
        | nil => exact absurd hsan hs_ne
        | cons c cs =>
          have hc : c ≠ '/' := by
            intro h
            subst h
            exact hs_free (hsan ▸ List.mem_cons_self _ _)
          simp [isAbsStr, hc]
      rw [habs_s]
      simp

/-- Witness for C2 (amended) at concrete paths. -/
theorem validatePath_safety_witness :
    validatePath ("/cwd".toList) ("/etc/passwd".toList) ("/base".toList) = .traversal
      ∧ validatePath ("/cwd".toList)
          (joinPath ("/base".toList) (sanitizeFilename ("ok.png".toList)))
          ("/base".toList) = .ok :=
  validatePath_safety ("/cwd".toList) ("/etc/passwd".toList) ("/base".toList)
    ("ok.png".toList) (by decide) (by decide) (by decide) (by decide)

/-! ## Retry executor (`internal/github/client.go`, ctx variant, and
`internal/xenforo/client.go`)

`executeWithRetry` waits `attempt * retryBackoffMultiple` seconds before
retry attempt `attempt ≥ 1`, capped at `maxBackoffDuration = 5 * time.Minute`;
before the first attempt it waits the configured base `rateLimitDelay`.
Errors are classified by string matching: the rate-limit check
(`parseRateLimitFromError`) runs before `isRetryableError`, so a rate-limited
error is never returned through the non-retryable branch. -/

/-- `maxBackoffDuration` (5 minutes), in seconds. -/
def maxBackoffDurationSec : Nat := 300

/-- The backoff computed at the top of each retry iteration of
`executeWithRetry`: `attempt * retryBackoffMultiple` seconds, truncated to
`maxBackoffDuration`. -/
def backoffDurationSec (attempt retryBackoffMultiple : Nat) : Nat :=
  let d := attempt * retryBackoffMultiple
  if d > maxBackoffDurationSec then maxBackoffDurationSec else d

/-- The wait taken before attempt number `attempt` (0-based as in the loop):
backoff before a retry, the base rate-limit delay before the first try. -/
def waitBeforeAttemptSec (attempt retryBackoffMultiple rateLimitDelay : Nat) : Nat :=
  if attempt > 0 then backoffDurationSec attempt retryBackoffMultiple else rateLimitDelay

/-- `Client.retryableRequest` (XenForo client): `math.Pow(2, i)` seconds
before retry `i+1`, uncapped. -/
def xenforoRetryDelaySec (i : Nat) : Nat := 2 ^ i

/-- The substrings `parseRateLimitFromError` looks for (each in the lowered
error text). -/
def rateLimitPatterns : List Str :=
  ["rate limit".toList, "api rate limit exceeded".toList,
    "secondary rate limit".toList, "abuse detection".toList]

def isRateLimitError (e : Str) : Bool :=
  rateLimitPatterns.any fun p => containsSubstr p (toLower e)

/-- `isRetryableError`'s transient-failure signatures. -/
def retryablePatterns : List Str :=
  ["connection reset".toList, "connection refused".toList, "timeout".toList,
    "temporary failure".toList, "network is unreachable".toList,
    "no such host".toList, "server error".toList, "internal server error".toList,
    "bad gateway".toList, "service unavailable".toList, "gateway timeout".toList,
    "502".toList, "503".toList, "504".toList, "unexpected eof".toList,
    "broken pipe".toList]

/-- `isRetryableError`'s permanent-failure signatures. -/
def nonRetryablePatterns : List Str :=
  ["unauthorized".toList, "forbidden".toList, "not found".toList,
    "bad request".toList, "invalid".toList,
    "401".toList, "403".toList, "404".toList, "400".toList]

/-- `Client.isRetryableError`: retryable signatures first, then the
non-retryable ones, defaulting to retryable. -/
def isRetryableError (e : Str) : Bool :=
  if retryablePatterns.any (fun p => containsSubstr p (toLower e)) then true
  else if nonRetryablePatterns.any (fun p => containsSubstr p (toLower e)) then false
  else true

inductive Classification where
  | rateLimited
  | retryable
  | permanent
  deriving DecidableEq, Repr

/-- The classification `executeWithRetry` applies to a failed operation, in
its branch order: `parseRateLimitFromError` first, then `isRetryableError`. -/
def classifyError (e : Str) : Classification :=
  if isRateLimitError e then .rateLimited
  else if isRetryableError e then .retryable
  else .permanent

inductive StepAction where
  | retryAfterResetWait
  | returnRateLimitError
  | returnPermanent
  | retryWithBackoff
  | returnExhausted
  deriving DecidableEq, Repr

/-- What `executeWithRetry` does with the error of attempt `attempt`
(0-based, bounded by `maxRetries`): a rate-limited error waits for the reset
estimate and retries (or is returned as the rate-limit error once attempts
are exhausted); a non-retryable error returns immediately; otherwise the
loop retries until attempts run out. -/
def stepOnError (maxRetries attempt : Nat) (e : Str) : StepAction :=
  if isRateLimitError e then
    if attempt ≥ maxRetries then .returnRateLimitError else .retryAfterResetWait
  else if ¬ isRetryableError e then .returnPermanent
  else if attempt ≥ maxRetries then .returnExhausted
  else .retryWithBackoff

/-- C5.  The backoff before retry attempt `a ≥ 1` is exactly
`min(a * retryBackoffMultiple, maxBackoffCap)`; over increasing attempts the
waits are non-decreasing and never exceed the cap. -/
theorem backoff_spec (retryBackoffMultiple rateLimitDelay a b : Nat)
    (ha : 1 ≤ a) (hab : a ≤ b) :
    waitBeforeAttemptSec a retryBackoffMultiple rateLimitDelay
        = min (a * retryBackoffMultiple) maxBackoffDurationSec
      ∧ waitBeforeAttemptSec a retryBackoffMultiple rateLimitDelay
          ≤ waitBeforeAttemptSec b retryBackoffMultiple rateLimitDelay
      ∧ waitBeforeAttemptSec b retryBackoffMultiple rateLimitDelay
          ≤ maxBackoffDurationSec := by
  have hb : 1 ≤ b := le_trans ha hab
  have hwa : waitBeforeAttemptSec a retryBackoffMultiple rateLimitDelay
      = backoffDurationSec a retryBackoffMultiple := by
    unfold waitBeforeAttemptSec
    rw [if_pos (by omega : a > 0)]
  have hwb : waitBeforeAttemptSec b retryBackoffMultiple rateLimitDelay
      = backoffDurationSec b retryBackoffMultiple := by
    unfold waitBeforeAttemptSec
    rw [if_pos (by omega : b > 0)]
  have hmin : ∀ n : Nat, backoffDurationSec n retryBackoffMultiple
      = min (n * retryBackoffMultiple) maxBackoffDurationSec := by
    intro n
    unfold backoffDurationSec
    rcases le_or_lt (n * retryBackoffMultiple) maxBackoffDurationSec with h | h
    · rw [if_neg (by omega), min_eq_left h]
    · rw [if_pos h, min_eq_right (le_of_lt h)]
  refine ⟨by rw [hwa, hmin], ?_, ?_⟩
  · rw [hwa, hwb, hmin, hmin]
    exact min_le_min (Nat.mul_le_mul_right _ hab) le_rfl
  · rw [hwb, hmin]
    exact min_le_right _ _

/-- Witness for C5 at concrete configuration values. -/
theorem backoff_spec_witness :
    waitBeforeAttemptSec 2 3 1 = min (2 * 3) maxBackoffDurationSec
      ∧ waitBeforeAttemptSec 2 3 1 ≤ waitBeforeAttemptSec 5 3 1
      ∧ waitBeforeAttemptSec 5 3 1 ≤ maxBackoffDurationSec :=
  backoff_spec 3 1 2 5 (by decide) (by decide)

/-- C6.  An error whose (lowered) text contains a known rate-limit signature
is classified `rateLimited`, never `permanent`; the executor handles it by
waiting for the reset estimate and retrying while attempts remain, and even
with attempts exhausted it returns the rate-limit error, not a permanent
one. -/
theorem rateLimit_never_permanent (e : Str) (maxRetries attempt : Nat)
    (h : containsSubstr ("rate limit".toList) (toLower e) = true
      ∨ containsSubstr ("secondary rate limit".toList) (toLower e) = true
      ∨ containsSubstr ("abuse detection".toList) (toLower e) = true) :
    classifyError e = .rateLimited
      ∧ classifyError e ≠ .permanent
      ∧ stepOnError maxRetries attempt e ≠ .returnPermanent
      ∧ (attempt < maxRetries → stepOnError maxRetries attempt e = .retryAfterResetWait) := by
  have hrl : isRateLimitError e = true := by
    unfold isRateLimitError rateLimitPatterns
    simp only [List.any_cons, List.any_nil, Bool.or_eq_true, Bool.or_false]
    rcases h with h | h | h
    · exact Or.inl h
    · exact Or.inr (Or.inr (Or.inl h))
    · exact Or.inr (Or.inr (Or.inr h))
  have hcls : classifyError e = .rateLimited := by
    unfold classifyError
    rw [if_pos hrl]
  refine ⟨hcls, by rw [hcls] ; intro h' ; exact Classification.noConfusion h', ?_, ?_⟩
  · unfold stepOnError
    rw [if_pos hrl]
    by_cases hm : attempt ≥ maxRetries
    · rw [if_pos hm]
      intro h'
      exact StepAction.noConfusion h'
    · rw [if_neg hm]
      intro h'
      exact StepAction.noConfusion h'
  · intro hlt
    unfold stepOnError
    rw [if_pos hrl, if_neg (by omega : ¬ attempt ≥ maxRetries)]

/-- Witness for C6 on a concrete GitHub-style error text. -/
theorem rateLimit_never_permanent_witness :
    classifyError ("403 API rate limit exceeded for installation".toList)
        = .rateLimited
      ∧ classifyError ("403 API rate limit exceeded for installation".toList)
        ≠ .permanent
      ∧ stepOnError 3 1 ("403 API rate limit exceeded for installation".toList)
        ≠ .returnPermanent
      ∧ (1 < 3 → stepOnError 3 1 ("403 API rate limit exceeded for installation".toList)
        = .retryAfterResetWait) :=
  rateLimit_never_permanent ("403 API rate limit exceeded for installation".toList) 3 1
    (Or.inl (by decide))

/-! ## Ledger persistence (`internal/progress/persistence.go`)

`Persistence.Save` marshals the progress with `json.MarshalIndent(progress,
"", "  ")` and writes the bytes with a single `os.WriteFile(p.filePath,
data, 0644)`.  The write is modelled as a trace of filesystem operations so
that atomicity (write-then-swap vs. direct write) is expressible. -/

def digitChar (n : Nat) : Char := Char.ofNat (48 + n)

def natToStrFuel : Nat → Nat → Str
  | 0, _ => []
  | fuel + 1, n =>
    if n < 10 then [digitChar n]
    else natToStrFuel fuel (n / 10) ++ [digitChar (n % 10)]

def natToStr (n : Nat) : Str := natToStrFuel (n + 1) n

def intToStr (i : Int) : Str :=
  if i < 0 then '-' :: natToStr i.natAbs else natToStr i.toNat

def joinWithStr (sep : Str) : List Str → Str
  | [] => []
  | [s] => s
  | s :: rest => s ++ sep ++ joinWithStr sep rest

/-- `encoding/json`'s rendering of an `[]int` under `MarshalIndent` with a
two-space indent, at nesting depth one. -/
def jsonIntList (l : List Int) : Str :=
  if l = [] then "[]".toList
  else
    "[\n".toList
      ++ joinWithStr (",\n".toList) (l.map fun i => "    ".toList ++ intToStr i)
      ++ "\n  ]".toList

/-- `json.MarshalIndent(progress, "", "  ")` on the `MigrationProgress`
struct and its four json-tagged fields. -/
def marshalProgress (p : MigrationProgress) : Str :=
  "\x7b\n  \"last_thread_id\": ".toList ++ intToStr p.lastThreadID
    ++ ",\n  \"completed_threads\": ".toList ++ jsonIntList p.completedThreads
    ++ ",\n  \"failed_threads\": ".toList ++ jsonIntList p.failedThreads
    ++ ",\n  \"last_updated\": ".toList ++ intToStr p.lastUpdated
    ++ "\n\x7d".toList

inductive FsOp where
  | writeFile (path : Str) (contents : Str)
  | rename (src dst : Str)
  deriving DecidableEq, Repr

/-- The filesystem operations `Persistence.Save` performs: one direct
whole-file write of the marshalled state to the progress-file path. -/
def saveOps (filePath : Str) (p : MigrationProgress) : List FsOp :=
  [FsOp.writeFile filePath (marshalProgress p)]

def applyOp (fs : Str → Option Str) : FsOp → (Str → Option Str)
  | FsOp.writeFile p c => fun q => if q = p then some c else fs q
  | FsOp.rename s d => fun q => if q = d then fs s else if q = s then none else fs q

def runOps (fs : Str → Option Str) (ops : List FsOp) : Str → Option Str :=
  ops.foldl applyOp fs

/-- Write-then-swap semantics: the full contents go to a temporary file,
which is then renamed over the final path. -/
def writeThenSwap (final : Str) (ops : List FsOp) : Prop :=
  ∃ tmp data, tmp ≠ final ∧ ops = [FsOp.writeFile tmp data, FsOp.rename tmp final]

/-- The contents observable at the written path if a direct write of `data`
is interrupted after `k` bytes. -/
def tornStateAt (data : Str) (k : Nat) : Str := data.take k

/-- C9, counterexample.  `Persistence.Save` is a single direct
`os.WriteFile` to the ledger path — not a write-then-swap — and
interrupting that write after one byte leaves a file whose contents are
neither the old state (here `"x"`) nor the new marshalled state: a torn
state file is observable. -/
theorem save_not_write_then_swap :
    ¬ writeThenSwap ("migration_progress.json".toList)
        (saveOps ("migration_progress.json".toList) ⟨7, [1], [], 0⟩)
      ∧ tornStateAt (marshalProgress ⟨7, [1], [], 0⟩) 1 ≠ "x".toList
      ∧ tornStateAt (marshalProgress ⟨7, [1], [], 0⟩) 1
          ≠ marshalProgress ⟨7, [1], [], 0⟩ := by
  refine ⟨?_, by decide, by decide⟩
  rintro ⟨tmp, data, hne, heq⟩
  have := congrArg List.length heq
  simp [saveOps] at this

/-- C9, amended.  Each `Save` fully replaces the previous contents of the
ledger file with the complete marshalled state in one whole-file write — the
new contents do not depend on what was there before, and no other path is
touched — but the write goes directly to the final path with no temporary
file and rename, so it is not atomic against interruption. -/
theorem save_replaces_whole_file (fs : Str → Option Str) (fp : Str)
    (p : MigrationProgress) :
    runOps fs (saveOps fp p) fp = some (marshalProgress p)
      ∧ (∀ q, q ≠ fp → runOps fs (saveOps fp p) q = fs q)
      ∧ ¬ writeThenSwap fp (saveOps fp p) := by
  refine ⟨?_, ?_, ?_⟩
  · simp [runOps, saveOps, applyOp]
  · intro q hq
    simp [runOps, saveOps, applyOp, hq]
  · rintro ⟨tmp, data, hne, heq⟩
    have := congrArg List.length heq
    simp [saveOps] at this

/-- Witness for C9 (amended) at a concrete state and filesystem. -/
theorem save_replaces_whole_file_witness :
    runOps (fun _ => none) (saveOps ("f".toList) ⟨0, [], [], 0⟩) ("g".toList)
      = none :=
  (save_replaces_whole_file (fun _ => none) ("f".toList) ⟨0, [], [], 0⟩).2.1
    ("g".toList) (by decide)

/-! ## Attachment link rewriting (`internal/attachments/downloader.go`) -/

structure Attachment where
  attachmentID : Int
  filename : Str
  directURL : Str
  deriving DecidableEq, Repr

/-- Go `filepath.Ext`: the suffix of the last element starting at its final
dot (empty when the last element has no dot). -/
def fileExt (filename : Str) : Str :=
  let r := filename.reverse
  let t := r.takeWhile fun c => ¬ (c = '.' ∨ c = '/')
  match r.drop t.length with
  | '.' :: _ => '.' :: t.reverse
  | _ => []

/-- Go `strings.TrimPrefix`. -/
def trimPrefixStr (pat l : Str) : Str :=
  if pat.isPrefixOf l then l.drop pat.length else l

/-- `Downloader.getFileExtension`: lowered `filepath.Ext` without the dot,
`"unknown"` when there is none. -/
def getFileExtension (filename : Str) : Str :=
  let ext := toLower (fileExt filename)
  if ext = [] then "unknown".toList
  else trimPrefixStr (".".toList) ext

/-- `Downloader.isImageFile`'s extension allowlist. -/
def imageExtensions : List Str :=
  ["png".toList, "jpg".toList, "jpeg".toList, "gif".toList, "webp".toList]

def isImageFile (ext : Str) : Bool := imageExtensions.contains ext

/-- `Downloader.ReplaceAttachmentLinks`: for each attachment, build
`attachment_<id>_<sanitized>` under `./<ext>/`, choose the image-embed or
plain-link form by the extension allowlist, and replace every occurrence of
both reference-token forms (`strings.ReplaceAll`). -/
def replaceAttachmentLinks (message : Str) (attachments : List Attachment) : Str :=
  attachments.foldl (fun msg attachment =>
    let sanitizedFilename := sanitizeFilename attachment.filename
    let ext := getFileExtension sanitizedFilename
    let filename := "attachment_".toList ++ intToStr attachment.attachmentID
      ++ '_' :: sanitizedFilename
    let relativePath := "./".toList ++ ext ++ '/' :: filename
    let markdownLink :=
      if isImageFile ext then
        "![".toList ++ sanitizedFilename ++ "](".toList ++ relativePath ++ ")".toList
      else
        "[".toList ++ sanitizedFilename ++ "](".toList ++ relativePath ++ ")".toList
    let bbCode := "[ATTACH=".toList ++ intToStr attachment.attachmentID ++ "]".toList
    let bbCodeFull := "[ATTACH=full]".toList ++ intToStr attachment.attachmentID
      ++ "[/ATTACH]".toList
    replaceAll bbCodeFull markdownLink (replaceAll bbCode markdownLink msg)) message

set_option maxRecDepth 10000 in
/-- C8.  Both reference-token forms for attachment id 1 with filename
`test.png` are replaced by the image embed
`![test.png](./png/attachment_1_test.png)` (image form because `png` is in
the allowlist), and a token occurring twice in one body is replaced both
times. -/
theorem replaceAttachmentLinks_example :
    replaceAttachmentLinks
        ("See [ATTACH=1] and [ATTACH=full]1[/ATTACH] and again [ATTACH=1].".toList)
        [⟨1, "test.png".toList, "https://forum/attachments/1".toList⟩]
      = ("See ![test.png](./png/attachment_1_test.png) and "
          ++ "![test.png](./png/attachment_1_test.png) and again "
          ++ "![test.png](./png/attachment_1_test.png).").toList := by
  decide

/-! ## BB-code to Markdown conversion (`internal/bbcode`, `Converter`)

Each regex pass of `Converter.ToMarkdown` is embedded as a scanner that
tries its pattern at every position, replacing each non-overlapping
leftmost match — the behaviour of `ReplaceAllString` /
`ReplaceAllStringFunc`.  Non-greedy `(.*?)` groups take the shortest text up
to the closing tag (`splitAtFirst`); patterns without the `(?s)` flag
require the dot-matched content to be newline-free. -/

/-- Consume a literal prefix. -/
def expect (pat l : Str) : Option Str :=
  if pat.isPrefixOf l then some (l.drop pat.length) else none

/-- Run a matcher at every position, emitting replacements for matches and
copying characters otherwise (fuelled; every match consumes at least one
character, so fuel = input length suffices). -/
def scanFuel (m : Str → Option (Str × Str)) : Nat → Str → Str
  | 0, l => l
  | _ + 1, [] => []
  | fuel + 1, c :: rest =>
    match m (c :: rest) with
    | some (out, rest') => out ++ scanFuel m fuel rest'
    | none => c :: scanFuel m fuel rest

def scanPass (m : Str → Option (Str × Str)) (l : Str) : Str := scanFuel m l.length l

/-- `(?s)\[code\](.*?)\[/code\]` → a fence around the trimmed content
(`Converter.processCodeBlocks`). -/
def matchCode (l : Str) : Option (Str × Str) :=
  (expect ("[code]".toList) l).bind fun r =>
    (splitAtFirst ("[/code]".toList) r).map fun p =>
      ("\n```\n".toList ++ trimSpace p.1 ++ "\n```\n".toList, p.2)

def processCodeBlocks (l : Str) : Str := scanPass matchCode l

/-- Render an attributed quote: bolded `author said:` header, then each line
of the trimmed content prefixed with `"> "`. -/
def renderAttrQuote (author content : Str) : Str :=
  "> **".toList ++ author ++ " said:**\n".toList
    ++ ((splitOnChar '\n' (trimSpace content)).map
        fun line => "> ".toList ++ line ++ ['\n']).flatten

def renderSimpleQuote (content : Str) : Str :=
  ((splitOnChar '\n' (trimSpace content)).map
    fun line => "> ".toList ++ line ++ ['\n']).flatten

/-- `(?s)\[quote="([^,"]+)(?:,[^\]]+)?"\](.*?)\[/quote\]`: author up to a
comma or quote, an optional ignored parameter list, then the quoted body. -/
def matchQuoteAttr (l : Str) : Option (Str × Str) :=
  (expect ("[quote=\"".toList) l).bind fun r₁ =>
    let author := r₁.takeWhile fun c => ¬ (c = ',' ∨ c = '"')
    if author = [] then none
    else
      let r₂ := r₁.drop author.length
      let afterParams : Option Str :=
        if r₂.head? = some ',' then
          -- `,[^\]]+"`: at least one non-`]` character ending in the quote
          let skip := (r₂.drop 1).takeWhile (· ≠ ']')
          if 2 ≤ skip.length ∧ skip.getLast? = some '"' then
            some ((r₂.drop 1).drop (skip.length - 1))
          else none
        else some r₂
      afterParams.bind fun r₄ =>
        (expect ("\"]".toList) r₄).bind fun r₅ =>
          (splitAtFirst ("[/quote]".toList) r₅).map fun p =>
            (renderAttrQuote author p.1, p.2)

/-- `(?s)\[quote\](.*?)\[/quote\]` (`Converter.processQuotes`, plain form). -/
def matchQuoteSimple (l : Str) : Option (Str × Str) :=
  (expect ("[quote]".toList) l).bind fun r =>
    (splitAtFirst ("[/quote]".toList) r).map fun p =>
      (renderSimpleQuote p.1, p.2)

def quotePassOnce (l : Str) : Str := scanPass matchQuoteSimple (scanPass matchQuoteAttr l)

/-- The fixed-point loop of `Converter.processQuotes`: attributed pass then
plain pass, up to `maxIterations = 10` times, stopping when nothing
changes. -/
def processQuotesFuel : Nat → Str → Str
  | 0, l => l
  | n + 1, l =>
    let next := quotePassOnce l
    if next = l then next else processQuotesFuel n next

def processQuotes (l : Str) : Str := processQuotesFuel 10 l

/-- `\[url="([^"]+)"\](.*?)\[/url\]` → `[$2]($1)` (applied directly in
`ToMarkdown` before the formatting tags). -/
def matchUrlQuoted (l : Str) : Option (Str × Str) :=
  (expect ("[url=\"".toList) l).bind fun r₁ =>
    let url := r₁.takeWhile (· ≠ '"')
    if url = [] then none
    else
      (expect ("\"]".toList) (r₁.drop url.length)).bind fun r₂ =>
        (splitAtFirst ("[/url]".toList) r₂).bind fun p =>
          if '\n' ∈ p.1 then none
          else some (['['] ++ p.1 ++ "](".toList ++ url ++ [')'], p.2)

/-- `Converter.processFormattingTag` for `\[tag\](.*?)\[/tag\]`: an
all-whitespace content elides the pair entirely, otherwise the content is
wrapped in the target markers. -/
def matchFmtTag (tag openTag closeTag : Str) (l : Str) : Option (Str × Str) :=
  (expect ('[' :: tag ++ [']']) l).bind fun r =>
    (splitAtFirst ("[/".toList ++ tag ++ [']']) r).bind fun p =>
      if '\n' ∈ p.1 then none
      else some (if trimSpace p.1 = [] then [] else openTag ++ p.1 ++ closeTag, p.2)

def processFormattingTag (l : Str) (tag openTag closeTag : Str) : Str :=
  scanPass (matchFmtTag tag openTag closeTag) l

/-- `\[url=([^\]]+)\](.*?)\[/url\]` → `[$2]($1)`. -/
def matchUrlEq (l : Str) : Option (Str × Str) :=
  (expect ("[url=".toList) l).bind fun r₁ =>
    let param := r₁.takeWhile (· ≠ ']')
    if param = [] then none
    else
      (expect ([']']) (r₁.drop param.length)).bind fun r₂ =>
        (splitAtFirst ("[/url]".toList) r₂).bind fun p =>
          if '\n' ∈ p.1 then none
          else some (['['] ++ p.1 ++ "](".toList ++ param ++ [')'], p.2)

/-- `\[url\](.*?)\[/url\]` → `[$1]($1)`. -/
def matchUrlPlain (l : Str) : Option (Str × Str) :=
  (expect ("[url]".toList) l).bind fun r =>
    (splitAtFirst ("[/url]".toList) r).bind fun p =>
      if '\n' ∈ p.1 then none
      else some (['['] ++ p.1 ++ "](".toList ++ p.1 ++ [')'], p.2)

/-- `\[img\](.*?)\[/img\]` → `![]($1)`. -/
def matchImg (l : Str) : Option (Str × Str) :=
  (expect ("[img]".toList) l).bind fun r =>
    (splitAtFirst ("[/img]".toList) r).bind fun p =>
      if '\n' ∈ p.1 then none
      else some ("![](".toList ++ p.1 ++ [')'], p.2)

/-- `(?s)\[spoiler(?:="[^"]*")?\](.*?)\[/spoiler\]` → a `<details>` block. -/
def matchSpoiler (l : Str) : Option (Str × Str) :=
  (expect ("[spoiler".toList) l).bind fun r₁ =>
    let afterParams : Option Str :=
      if r₁.head? = some '=' then
        (expect (['"']) (r₁.drop 1)).bind fun r₂ =>
          let title := r₂.takeWhile (· ≠ '"')
          expect (['"']) (r₂.drop title.length)
      else some r₁
    afterParams.bind fun r₃ =>
      (expect ([']']) r₃).bind fun r₄ =>
        (splitAtFirst ("[/spoiler]".toList) r₄).map fun p =>
          ("<details><summary>Spoiler</summary>\n\n".toList ++ p.1
            ++ "\n\n</details>".toList, p.2)

/-- `\[ispoiler\](.*?)\[/ispoiler\]` → `||$1||`. -/
def matchISpoiler (l : Str) : Option (Str × Str) :=
  (expect ("[ispoiler]".toList) l).bind fun r =>
    (splitAtFirst ("[/ispoiler]".toList) r).bind fun p =>
      if '\n' ∈ p.1 then none
      else some ("||".toList ++ p.1 ++ "||".toList, p.2)

/-- `\[media=([^\]]+)\](.*?)\[/media\]` → `[$1]($2)`. -/
def matchMedia (l : Str) : Option (Str × Str) :=
  (expect ("[media=".toList) l).bind fun r₁ =>
    let param := r₁.takeWhile (· ≠ ']')
    if param = [] then none
    else
      (expect ([']']) (r₁.drop param.length)).bind fun r₂ =>
        (splitAtFirst ("[/media]".toList) r₂).bind fun p =>
          if '\n' ∈ p.1 then none
          else some (['['] ++ param ++ "](".toList ++ p.1 ++ [')'], p.2)

/-- `\[center\](.*?)\[/center\]` → `<center>$1</center>`. -/
def matchCenter (l : Str) : Option (Str × Str) :=
  (expect ("[center]".toList) l).bind fun r =>
    (splitAtFirst ("[/center]".toList) r).bind fun p =>
      if '\n' ∈ p.1 then none
      else some ("<center>".toList ++ p.1 ++ "</center>".toList, p.2)

/-- `\[tag=[^\]]+\](.*?)\[/tag\]` → `$1`, for the cosmetic
color/size/font tags. -/
def matchParamStrip (tag : Str) (l : Str) : Option (Str × Str) :=
  (expect ('[' :: tag ++ ['=']) l).bind fun r₁ =>
    let param := r₁.takeWhile (· ≠ ']')
    if param = [] then none
    else
      (expect ([']']) (r₁.drop param.length)).bind fun r₂ =>
        (splitAtFirst ("[/".toList ++ tag ++ [']']) r₂).bind fun p =>
          if '\n' ∈ p.1 then none
          else some (p.1, p.2)

/-- `Converter.applySimpleReplacements`: the fixed table, in source order.
The list patterns are literal strings, replaced with `replaceAll`. -/
def applySimpleReplacements (l : Str) : Str :=
  let r₁ := scanPass matchUrlEq l
  let r₂ := scanPass matchUrlPlain r₁
  let r₃ := scanPass matchImg r₂
  let r₄ := scanPass matchSpoiler r₃
  let r₅ := scanPass matchISpoiler r₄
  let r₆ := scanPass matchMedia r₅
  let r₇ := replaceAll ("[*]".toList) ("- ".toList) r₆
  let r₈ := replaceAll ("[list=1]\n".toList) (['\n']) r₇
  let r₉ := replaceAll ("[list]\n".toList) (['\n']) r₈
  let r₁₀ := replaceAll ("\n[/list]".toList) (['\n']) r₉
  let r₁₁ := scanPass matchCenter r₁₀
  let r₁₂ := scanPass (matchParamStrip ("color".toList)) r₁₁
  let r₁₃ := scanPass (matchParamStrip ("size".toList)) r₁₂
  scanPass (matchParamStrip ("font".toList)) r₁₃

def isAlphaChar (c : Char) : Bool :=
  ('a' ≤ c ∧ c ≤ 'z') ∨ ('A' ≤ c ∧ c ≤ 'Z')

def isTagRestChar (c : Char) : Bool :=
  isAlphaChar c || ('0' ≤ c ∧ c ≤ '9' : Bool) || c = '=' || c = '_' || c = '-'

/-- `\[/?[a-zA-Z][a-zA-Z0-9=_-]*\](?!\()` (`Converter.cleanupUnhandledTags`):
a leftover tag-like token is removed unless it is an `[ATTACH…]` reference
token (kept for the attachment pass) or is followed by `(` — the guard that
protects markdown links the earlier passes just produced. -/
def matchCleanup (l : Str) : Option (Str × Str) :=
  match l with
  | [] => none
  | c₀ :: r₁ =>
    if c₀ = '[' then
      let slash := r₁.head? = some '/'
      let r₂ := if slash then r₁.drop 1 else r₁
      match r₂ with
      | [] => none
      | c :: r₃ =>
        if isAlphaChar c then
          let body := r₃.takeWhile isTagRestChar
          match r₃.drop body.length with
          | ']' :: rest =>
            if rest.head? = some '(' then none
            else
              let matched := '[' :: (if slash then ['/'] else [])
                ++ c :: body ++ [']']
              some
                (if "[ATTACH".toList.isPrefixOf matched
                    ∨ matched = "[/ATTACH]".toList then matched else [],
                  rest)
          | _ => none
        else none
    else none

def cleanupUnhandledTags (l : Str) : Str := scanPass matchCleanup l

/-- `\n{3,}` → `"\n\n"`: maximal runs of three or more newlines collapse to
one blank line.  `collapseGo` carries the count of pending newlines. -/
def emitNewlines (n : Nat) : Str :=
  if 3 ≤ n then ['\n', '\n'] else List.replicate n '\n'

def collapseGo : Str → Nat → Str
  | [], n => emitNewlines n
  | c :: rest, n =>
    if c = '\n' then collapseGo rest (n + 1)
    else emitNewlines n ++ c :: collapseGo rest 0

def collapseNewlines (l : Str) : Str := collapseGo l 0

/-- `Converter.finalCleanup`: collapse newline runs, then
`strings.Trim(result, " \t")`. -/
def finalCleanup (l : Str) : Str := trimCutset [' ', '\t'] (collapseNewlines l)

/-- `Converter.ToMarkdown`: empty input short-circuits; otherwise the passes
run in source order. -/
def toMarkdown (bbcode : Str) : Str :=
  if trimSpace bbcode = [] then []
  else
    let r₁ := processCodeBlocks bbcode
    let r₂ := processQuotes r₁
    let r₃ := scanPass matchUrlQuoted r₂
    let r₄ := processFormattingTag r₃ ("b".toList) ("**".toList) ("**".toList)
    let r₅ := processFormattingTag r₄ ("i".toList) ("*".toList) ("*".toList)
    let r₆ := processFormattingTag r₅ ("u".toList) ("<u>".toList) ("</u>".toList)
    let r₇ := processFormattingTag r₆ ("s".toList) ("~~".toList) ("~~".toList)
    let r₈ := processFormattingTag r₇ ("strike".toList) ("~~".toList) ("~~".toList)
    let r₉ := applySimpleReplacements r₈
    let r₁₀ := cleanupUnhandledTags r₉
    finalCleanup r₁₀

/-- Three consecutive newlines somewhere in the text — what the `\n{3,}`
collapse is meant to rule out of the output. -/
def hasTriple : Str → Bool
  | a :: b :: c :: rest =>
    (decide (a = '\n') && decide (b = '\n') && decide (c = '\n'))
      || hasTriple (b :: c :: rest)
  | _ => false

theorem hasTriple_cons_of_ne {c : Char} (hc : c ≠ '\n') (l : Str) :
    hasTriple (c :: l) = hasTriple l := by
  rcases l with _ | ⟨b, _ | ⟨d, rest⟩⟩ <;> simp [hasTriple, hc]

theorem hasTriple_nl_cons {b : Char} (hb : b ≠ '\n') (l : Str) :
    hasTriple ('\n' :: b :: l) = hasTriple (b :: l) := by
  rcases l with _ | ⟨d, rest⟩ <;> simp [hasTriple, hb]

theorem hasTriple_nl_nl_cons {c : Char} (hc : c ≠ '\n') (l : Str) :
    hasTriple ('\n' :: '\n' :: c :: l) = hasTriple (c :: l) := by
  rw [show hasTriple ('\n' :: '\n' :: c :: l)
      = ((decide (('\n' : Char) = '\n') && decide (('\n' : Char) = '\n')
          && decide (c = '\n')) || hasTriple ('\n' :: c :: l)) from rfl,
    hasTriple_nl_cons hc]
  simp [hc]

theorem hasTriple_iff (l : Str) : hasTriple l = true ↔ ['\n', '\n', '\n'] <:+: l := by
  induction l with
  | nil => simp [hasTriple, List.infix_nil]
  | cons a t ih =>
    rcases t with _ | ⟨b, t'⟩
    · simp only [hasTriple]
      constructor
      · intro h ; simp at h
      · intro h
        have := h.length_le
        simp at this
    · rcases t' with _ | ⟨c, r⟩
      · simp only [hasTriple]
        constructor
        · intro h ; simp at h
        · intro h
          have := h.length_le
          simp at this
      · show ((decide (a = '\n') && decide (b = '\n') && decide (c = '\n'))
            || hasTriple (b :: c :: r)) = true ↔ _
        constructor
        · intro h
          rcases Bool.or_eq_true_iff.mp h with h' | h'
          · simp only [Bool.and_eq_true, decide_eq_true_eq] at h'
            obtain ⟨⟨ha, hb⟩, hc⟩ := h'
            subst ha ; subst hb ; subst hc
            exact (List.prefix_append _ (r : Str)).isInfix
          · exact List.infix_cons (ih.mp h')
        · intro h
          rcases List.infix_cons_iff.mp h with h' | h'
          · obtain ⟨ha, h₂⟩ := List.cons_prefix_cons.mp h'
            obtain ⟨hb, h₃⟩ := List.cons_prefix_cons.mp h₂
            obtain ⟨hc, _⟩ := List.cons_prefix_cons.mp h₃
            simp [← ha, ← hb, ← hc]
          · exact Bool.or_eq_true_iff.mpr (Or.inr (ih.mpr h'))

theorem noTriple_of_infix {x y : Str} (h : x <:+: y) (hy : hasTriple y = false) :
    hasTriple x = false := by
  by_contra hx
  rw [Bool.not_eq_false] at hx
  have := ((hasTriple_iff x).mp hx).trans h
  rw [(hasTriple_iff y).mpr this] at hy
  exact Bool.true_eq_false_eq_False hy

theorem hasTriple_append_no_nl {t z : Str} (ht : '\n' ∉ t) :
    hasTriple (t ++ z) = hasTriple z := by
  induction t with
  | nil => rfl
  | cons d t' ih =>
    have hd : d ≠ '\n' := fun h => ht (h ▸ List.mem_cons_self d t')
    rw [List.cons_append, hasTriple_cons_of_ne hd,
      ih (fun h => ht (List.mem_cons_of_mem d h))]

theorem collapseGo_noTriple (l : Str) : ∀ n : Nat, hasTriple (collapseGo l n) = false := by
  induction l with
  | nil =>
    intro n
    show hasTriple (emitNewlines n) = false
    unfold emitNewlines
    by_cases h3 : 3 ≤ n
    · rw [if_pos h3] ; rfl
    · rw [if_neg h3]
      rcases n with _ | _ | _ | m
      · rfl
      · rfl
      · rfl
      · omega
  | cons c rest ih =>
    intro n
    show hasTriple (if c = '\n' then collapseGo rest (n + 1)
      else emitNewlines n ++ c :: collapseGo rest 0) = false
    by_cases hc : c = '\n'
    · rw [if_pos hc] ; exact ih (n + 1)
    · rw [if_neg hc]
      by_cases h3 : 3 ≤ n
      · have hemit : emitNewlines n = ['\n', '\n'] := by
          unfold emitNewlines ; rw [if_pos h3]
        rw [hemit, List.cons_append, List.cons_append, List.nil_append,
          hasTriple_nl_nl_cons hc, hasTriple_cons_of_ne hc]
        exact ih 0
      · rcases n with _ | _ | _ | m
        · have hemit : emitNewlines 0 = [] := rfl
          rw [hemit, List.nil_append, hasTriple_cons_of_ne hc]
          exact ih 0
        · have hemit : emitNewlines 1 = ['\n'] := rfl
          rw [hemit, List.cons_append, List.nil_append,
            hasTriple_nl_cons hc, hasTriple_cons_of_ne hc]
          exact ih 0
        · have hemit : emitNewlines 2 = ['\n', '\n'] := rfl
          rw [hemit, List.cons_append, List.cons_append, List.nil_append,
            hasTriple_nl_nl_cons hc, hasTriple_cons_of_ne hc]
          exact ih 0
        · omega

theorem trimCutset_isInfix (cut : List Char) (l : Str) : trimCutset cut l <:+: l := by
  unfold trimCutset
  have h₁ : l.dropWhile (cut.contains ·) <:+ l := List.dropWhile_suffix _
  have h₂ : (l.dropWhile (cut.contains ·)).reverse.dropWhile (cut.contains ·)
      <:+ (l.dropWhile (cut.contains ·)).reverse := List.dropWhile_suffix _
  have h₂' : (((l.dropWhile (cut.contains ·)).reverse.dropWhile
        (cut.contains ·)).reverse).reverse
      <:+ (l.dropWhile (cut.contains ·)).reverse := by
    simpa using h₂
  exact (List.reverse_suffix.mp h₂').isInfix.trans h₁.isInfix

theorem finalCleanup_noTriple (l : Str) : hasTriple (finalCleanup l) = false :=
  noTriple_of_infix (trimCutset_isInfix _ _) (collapseGo_noTriple l 0)

theorem toMarkdown_noTriple (s : Str) : hasTriple (toMarkdown s) = false := by
  unfold toMarkdown
  by_cases h : trimSpace s = []
  · rw [if_pos h] ; rfl
  · rw [if_neg h]
    exact finalCleanup_noTriple _

set_option maxRecDepth 40000 in
/-- C7.  The specified conversions: bold markers, empty-tag elision, the
two-line attributed blockquote, the verbatim code fence; and no output of
`ToMarkdown` contains a run of three or more consecutive newlines (every
such run is collapsed to one blank line). -/
theorem toMarkdown_examples :
    toMarkdown ("[b]bold text[/b]".toList) = "**bold text**".toList
      ∧ toMarkdown ("[b][/b]".toList) = "".toList
      ∧ toMarkdown ("[quote=\"John\"]Hi[/quote]".toList)
          = "> **John said:**\n> Hi\n".toList
      ∧ toMarkdown ("[code]x=1[/code]".toList) = "\n```\nx=1\n```\n".toList
      ∧ ∀ s : Str, hasTriple (toMarkdown s) = false :=
  ⟨by decide, by decide, by decide, by decide, toMarkdown_noTriple⟩

set_option maxRecDepth 40000 in
/-- C4, counterexample.  The content of a `[code]` region is not left
verbatim: the formatting pass rewrites the `[b]` pair inside the fence, so
`[code][b]x[/b][/code]` yields a fence containing `**x**`, not the original
`[b]x[/b]`. -/
theorem code_region_transformed :
    toMarkdown ("[code][b]x[/b][/code]".toList) = "\n```\n**x**\n```\n".toList
      ∧ toMarkdown ("[code][b]x[/b][/code]".toList)
          ≠ "\n```\n[b]x[/b]\n```\n".toList :=
  ⟨by decide, by decide⟩

theorem scanFuel_nil (m : Str → Option (Str × Str)) (fuel : Nat) :
    scanFuel m fuel [] = [] := by
  cases fuel <;> rfl

theorem expect_eq_none {pat l : Str} (hpat : '[' ∈ pat) (hl : '[' ∉ l) :
    expect pat l = none := by
  unfold expect
  by_cases h : pat.isPrefixOf l
  · exact absurd ((List.isPrefixOf_iff_prefix.mp h).subset hpat) hl
  · rw [if_neg h]

theorem bind_expect_none {pat l : Str} {β : Type} {f : Str → Option β}
    (hpat : '[' ∈ pat) (hl : '[' ∉ l) : (expect pat l).bind f = none := by
  rw [expect_eq_none hpat hl]
  rfl

theorem matchCode_none {l : Str} (hl : '[' ∉ l) : matchCode l = none :=
  bind_expect_none (by decide) hl

theorem matchQuoteAttr_none {l : Str} (hl : '[' ∉ l) : matchQuoteAttr l = none :=
  bind_expect_none (by decide) hl

theorem matchQuoteSimple_none {l : Str} (hl : '[' ∉ l) : matchQuoteSimple l = none :=
  bind_expect_none (by decide) hl

theorem matchUrlQuoted_none {l : Str} (hl : '[' ∉ l) : matchUrlQuoted l = none :=
  bind_expect_none (by decide) hl

theorem matchFmtTag_none (tag openTag closeTag : Str) {l : Str} (hl : '[' ∉ l) :
    matchFmtTag tag openTag closeTag l = none :=
  bind_expect_none (List.mem_cons_self '[' _) hl

theorem matchUrlEq_none {l : Str} (hl : '[' ∉ l) : matchUrlEq l = none :=
  bind_expect_none (by decide) hl

theorem matchUrlPlain_none {l : Str} (hl : '[' ∉ l) : matchUrlPlain l = none :=
  bind_expect_none (by decide) hl

theorem matchImg_none {l : Str} (hl : '[' ∉ l) : matchImg l = none :=
  bind_expect_none (by decide) hl

theorem matchSpoiler_none {l : Str} (hl : '[' ∉ l) : matchSpoiler l = none :=
  bind_expect_none (by decide) hl

theorem matchISpoiler_none {l : Str} (hl : '[' ∉ l) : matchISpoiler l = none :=
  bind_expect_none (by decide) hl

theorem matchMedia_none {l : Str} (hl : '[' ∉ l) : matchMedia l = none :=
  bind_expect_none (by decide) hl

theorem matchCenter_none {l : Str} (hl : '[' ∉ l) : matchCenter l = none :=
  bind_expect_none (by decide) hl

theorem matchParamStrip_none (tag : Str) {l : Str} (hl : '[' ∉ l) :
    matchParamStrip tag l = none :=
  bind_expect_none (List.mem_cons_self '[' _) hl

theorem matchCleanup_none {l : Str} (hl : '[' ∉ l) : matchCleanup l = none := by
  unfold matchCleanup
  cases l with
  | nil => rfl
  | cons c₀ r₁ =>
    have hc₀ : ¬ (c₀ = '[') := fun h => hl (h ▸ List.mem_cons_self c₀ r₁)
    simp only [if_neg hc₀]

theorem scanFuel_id {m : Str → Option (Str × Str)}
    (hm : ∀ s : Str, '[' ∉ s → m s = none) :
    ∀ (fuel : Nat) (l : Str), '[' ∉ l → scanFuel m fuel l = l := by
  intro fuel
  induction fuel with
  | zero => intro l _ ; rfl
  | succ f ih =>
    intro l hl
    cases l with
    | nil => rfl
    | cons c rest =>
      show (match m (c :: rest) with
        | some (out, rest') => out ++ scanFuel m f rest'
        | none => c :: scanFuel m f rest) = c :: rest
      rw [hm (c :: rest) hl]
      rw [ih rest (fun h => hl (List.mem_cons_of_mem c h))]

theorem scanPass_id {m : Str → Option (Str × Str)}
    (hm : ∀ s : Str, '[' ∉ s → m s = none) {l : Str} (hl : '[' ∉ l) :
    scanPass m l = l :=
  scanFuel_id hm l.length l hl

theorem replaceAllFuel_id {pat rep : Str} (hpat : '[' ∈ pat) :
    ∀ (fuel : Nat) (l : Str), '[' ∉ l → replaceAllFuel pat rep fuel l = l := by
  intro fuel
  induction fuel with
  | zero => intro l _ ; rfl
  | succ f ih =>
    intro l hl
    cases l with
    | nil => rfl
    | cons c rest =>
      show (if pat.isPrefixOf (c :: rest) ∧ ¬ pat.isEmpty then _ else
        c :: replaceAllFuel pat rep f rest) = c :: rest
      rw [if_neg, ih rest (fun h => hl (List.mem_cons_of_mem c h))]
      rintro ⟨hpre, -⟩
      exact hl ((List.isPrefixOf_iff_prefix.mp hpre).subset hpat)

theorem replaceAll_id {pat rep : Str} (hpat : '[' ∈ pat) {l : Str} (hl : '[' ∉ l) :
    replaceAll pat rep l = l :=
  replaceAllFuel_id hpat l.length l hl

theorem processQuotes_id {l : Str} (hl : '[' ∉ l) : processQuotes l = l := by
  have honce : quotePassOnce l = l := by
    unfold quotePassOnce
    rw [scanPass_id (fun s hs => matchQuoteAttr_none hs) hl,
      scanPass_id (fun s hs => matchQuoteSimple_none hs) hl]
  show processQuotesFuel 10 l = l
  show (let next := quotePassOnce l ; if next = l then next else processQuotesFuel 9 next) = l
  rw [honce]
  simp

theorem applySimpleReplacements_id {l : Str} (hl : '[' ∉ l) :
    applySimpleReplacements l = l := by
  simp only [applySimpleReplacements]
  rw [scanPass_id (fun s hs => matchUrlEq_none hs) hl,
    scanPass_id (fun s hs => matchUrlPlain_none hs) hl,
    scanPass_id (fun s hs => matchImg_none hs) hl,
    scanPass_id (fun s hs => matchSpoiler_none hs) hl,
    scanPass_id (fun s hs => matchISpoiler_none hs) hl,
    scanPass_id (fun s hs => matchMedia_none hs) hl,
    replaceAll_id (by decide) hl, replaceAll_id (by decide) hl,
    replaceAll_id (by decide) hl, replaceAll_id (by decide) hl,
    scanPass_id (fun s hs => matchCenter_none hs) hl,
    scanPass_id (fun s hs => matchParamStrip_none _ hs) hl,
    scanPass_id (fun s hs => matchParamStrip_none _ hs) hl,
    scanPass_id (fun s hs => matchParamStrip_none _ hs) hl]

theorem cleanupUnhandledTags_id {l : Str} (hl : '[' ∉ l) :
    cleanupUnhandledTags l = l :=
  scanPass_id (fun s hs => matchCleanup_none hs) hl

theorem splitAtFirst_boundary {pat : Str} (p' : Str) (hpat : pat = '[' :: p') :
    ∀ c : Str, '[' ∉ c → splitAtFirst pat (c ++ pat) = some (c, []) := by
  intro c
  induction c with
  | nil =>
    intro _
    subst hpat
    rw [List.nil_append]
    have hpre : (('[' :: p' : Str)).isPrefixOf ('[' :: p') = true :=
      List.isPrefixOf_iff_prefix.mpr ⟨[], by simp⟩
    simp [splitAtFirst, hpre, List.drop_length]
  | cons d c' ih =>
    intro hd
    have hd' : d ≠ '[' := fun h => hd (h ▸ List.mem_cons_self d c')
    have hnotpre : ¬ pat.isPrefixOf (d :: (c' ++ pat)) := by
      intro hpre
      have := List.isPrefixOf_iff_prefix.mp hpre
      rw [hpat] at this
      exact hd' (List.cons_prefix_cons.mp this).1.symm
    show (if pat.isPrefixOf (d :: (c' ++ pat)) then _
      else match splitAtFirst pat (c' ++ pat) with
        | some (pre, post) => some (d :: pre, post)
        | none => none) = some (d :: c', [])
    rw [if_neg hnotpre, ih (fun h => hd (List.mem_cons_of_mem d h))]

theorem collapseGo_eq_self :
    ∀ (l : Str) (n : Nat), n ≤ 2 →
      hasTriple (List.replicate n '\n' ++ l) = false →
      collapseGo l n = List.replicate n '\n' ++ l := by
  intro l
  induction l with
  | nil =>
    intro n hn _
    show emitNewlines n = List.replicate n '\n' ++ []
    unfold emitNewlines
    rw [if_neg (by omega), List.append_nil]
  | cons c rest ih =>
    intro n hn h
    show (if c = '\n' then collapseGo rest (n + 1)
      else emitNewlines n ++ c :: collapseGo rest 0) = List.replicate n '\n' ++ c :: rest
    by_cases hc : c = '\n'
    · subst hc
      rw [if_pos rfl]
      have hshape : List.replicate n '\n' ++ '\n' :: rest
          = List.replicate (n + 1) '\n' ++ rest := by
        rw [List.replicate_succ', List.append_assoc]
        rfl
      have hn1 : n + 1 ≤ 2 := by
        rcases Nat.lt_or_ge n 2 with h2 | h2
        · omega
        · exfalso
          have hn2 : n = 2 := by omega
          subst hn2
          rw [show (List.replicate 2 '\n' ++ '\n' :: rest : Str)
            = '\n' :: '\n' :: '\n' :: rest from rfl] at h
          rw [show hasTriple ('\n' :: '\n' :: '\n' :: rest)
            = ((decide (('\n' : Char) = '\n') && decide (('\n' : Char) = '\n')
                && decide (('\n' : Char) = '\n')) || hasTriple ('\n' :: '\n' :: rest))
            from rfl] at h
          simp at h
      rw [hshape] at h ⊢
      exact ih (n + 1) hn1 h
    · rw [if_neg hc]
      have hemit : emitNewlines n = List.replicate n '\n' := by
        unfold emitNewlines
        rw [if_neg (by omega)]
      have hrest : hasTriple rest = false := by
        refine noTriple_of_infix ?_ h
        exact ((List.suffix_cons c rest).trans (List.suffix_append _ _)).isInfix
      rw [hemit, ih 0 (by omega) (by simpa using hrest)]
      rfl

theorem hasTriple_fence {t : Str} (ht : '\n' ∉ t) :
    hasTriple ("\n```\n".toList ++ t ++ "\n```\n".toList) = false := by
  have hbt : ('`' : Char) ≠ '\n' := by decide
  rw [show ("\n```\n".toList ++ t ++ "\n```\n".toList : Str)
    = '\n' :: '`' :: '`' :: '`' :: '\n' :: (t ++ "\n```\n".toList) from by simp]
  rw [hasTriple_nl_cons hbt, hasTriple_cons_of_ne hbt, hasTriple_cons_of_ne hbt,
    hasTriple_cons_of_ne hbt]
  cases t with
  | nil => decide
  | cons d t' =>
    have hd : d ≠ '\n' := fun h => ht (h ▸ List.mem_cons_self d t')
    rw [show ('\n' :: ((d :: t') ++ "\n```\n".toList) : Str)
      = '\n' :: d :: (t' ++ "\n```\n".toList) from rfl]
    rw [hasTriple_nl_cons hd,
      show (d :: (t' ++ "\n```\n".toList) : Str) = (d :: t') ++ "\n```\n".toList from rfl,
      hasTriple_append_no_nl ht]
    decide

theorem trimCutset_id_of_boundary {cut : List Char} {l : Str}
    (hhead : ∀ x, l.head? = some x → cut.contains x = false)
    (hlast : ∀ x, l.getLast? = some x → cut.contains x = false) :
    trimCutset cut l = l := by
  unfold trimCutset
  have h₁ : l.dropWhile (cut.contains ·) = l := by
    cases l with
    | nil => rfl
    | cons a l' =>
      rw [List.dropWhile_cons, if_neg]
      rw [hhead a rfl]
      simp
  rw [h₁]
  have h₂ : l.reverse.dropWhile (cut.contains ·) = l.reverse := by
    cases hrev : l.reverse with
    | nil => rfl
    | cons b r =>
      have hb : l.getLast? = some b := by
        rw [← List.head?_reverse, hrev]
        rfl
      rw [List.dropWhile_cons, if_neg]
      rw [hlast b hb]
      simp
  rw [h₂, List.reverse_reverse]

theorem finalCleanup_fence {t : Str} (ht : '\n' ∉ t) :
    finalCleanup ("\n```\n".toList ++ t ++ "\n```\n".toList)
      = "\n```\n".toList ++ t ++ "\n```\n".toList := by
  unfold finalCleanup
  have hcol : collapseNewlines ("\n```\n".toList ++ t ++ "\n```\n".toList)
      = "\n```\n".toList ++ t ++ "\n```\n".toList := by
    have := collapseGo_eq_self ("\n```\n".toList ++ t ++ "\n```\n".toList) 0
      (by omega) (by simpa using hasTriple_fence ht)
    simpa using this
  rw [hcol]
  refine trimCutset_id_of_boundary ?_ ?_
  · intro x hx
    rw [show ("\n```\n".toList ++ t ++ "\n```\n".toList : Str)
      = '\n' :: ("```\n".toList ++ t ++ "\n```\n".toList) from by simp] at hx
    rw [List.head?_cons] at hx
    cases hx
    decide
  · intro x hx
    rw [show ("\n```\n".toList ++ t ++ "\n```\n".toList : Str)
      = ("\n```\n".toList ++ t ++ "\n```".toList) ++ ['\n'] from by simp] at hx
    rw [List.getLast?_concat] at hx
    cases hx
    decide

theorem processCodeBlocks_fence {c : Str} (hc : '[' ∉ c) :
    processCodeBlocks ("[code]".toList ++ c ++ "[/code]".toList)
      = "\n```\n".toList ++ trimSpace c ++ "\n```\n".toList := by
  have hmatch : matchCode ("[code]".toList ++ c ++ "[/code]".toList)
      = some ("\n```\n".toList ++ trimSpace c ++ "\n```\n".toList, []) := by
    unfold matchCode
    have hexp : expect ("[code]".toList) ("[code]".toList ++ c ++ "[/code]".toList)
        = some (c ++ "[/code]".toList) := by
      unfold expect
      rw [List.append_assoc, if_pos (List.isPrefixOf_iff_prefix.mpr
        (List.prefix_append _ _)), List.drop_left]
    rw [hexp]
    rw [Option.some_bind]
    rw [show ("[/code]".toList : Str) = '[' :: "/code]".toList from rfl]
    rw [splitAtFirst_boundary ("/code]".toList) rfl c hc]
    rfl
  show scanFuel matchCode ("[code]".toList ++ c ++ "[/code]".toList).length
    ("[code]".toList ++ c ++ "[/code]".toList) = _
  rw [show ("[code]".toList ++ c ++ "[/code]".toList : Str)
    = '[' :: ("code]".toList ++ c ++ "[/code]".toList) from by simp]
  rw [show ('[' :: ("code]".toList ++ c ++ "[/code]".toList) : Str).length
    = ("code]".toList ++ c ++ "[/code]".toList).length + 1 from by simp]
  show (match matchCode ('[' :: ("code]".toList ++ c ++ "[/code]".toList)) with
    | some (out, rest') => out ++ scanFuel matchCode _ rest'
    | none => _) = _
  rw [show ('[' :: ("code]".toList ++ c ++ "[/code]".toList) : Str)
    = "[code]".toList ++ c ++ "[/code]".toList from by simp]
  rw [hmatch]
  show ("\n```\n".toList ++ trimSpace c ++ "\n```\n".toList)
    ++ scanFuel matchCode ("code]".toList ++ c ++ "[/code]".toList).length []
    = "\n```\n".toList ++ trimSpace c ++ "\n```\n".toList
  rw [scanFuel_nil, List.append_nil]

theorem processFormattingTag_id {l : Str} (hl : '[' ∉ l) (tag openTag closeTag : Str) :
    processFormattingTag l tag openTag closeTag = l :=
  scanPass_id (fun s hs => matchFmtTag_none tag openTag closeTag hs) hl

/-- C4, amended.  A code region is fenced in place with its content
whitespace-trimmed, and content that contains no `[` and no newline is
emitted verbatim inside the fence, untouched by every later pass (shown for
an input that is exactly one code region); content containing tag-like
substrings is further transformed by the later passes, as the
counterexample shows. -/
theorem code_region_verbatim_when_benign (c : Str) (hbr : '[' ∉ c) (hnl : '\n' ∉ c) :
    toMarkdown ("[code]".toList ++ c ++ "[/code]".toList)
      = "\n```\n".toList ++ trimSpace c ++ "\n```\n".toList := by
  have htrim_ne : trimSpace ("[code]".toList ++ c ++ "[/code]".toList) ≠ [] := by
    intro h
    have hmem : '[' ∈ "[code]".toList ++ c ++ "[/code]".toList := by
      refine List.mem_append.mpr (Or.inl (List.mem_append.mpr (Or.inl ?_)))
      decide
    have := trimSpace_eq_nil_all_space h '[' hmem
    simp [isSpaceChar] at this
  have hfence_br : '[' ∉ ("\n```\n".toList ++ trimSpace c ++ "\n```\n".toList) := by
    intro h
    rcases List.mem_append.mp h with h' | h'
    · rcases List.mem_append.mp h' with h'' | h''
      · exact absurd h'' (by decide)
      · exact hbr (mem_of_mem_trimSpace h'')
    · exact absurd h' (by decide)
  have ht_nl : '\n' ∉ trimSpace c := fun h => hnl (mem_of_mem_trimSpace h)
  unfold toMarkdown
  rw [if_neg htrim_ne]
  show finalCleanup (cleanupUnhandledTags (applySimpleReplacements
      (processFormattingTag (processFormattingTag (processFormattingTag
        (processFormattingTag (processFormattingTag
          (scanPass matchUrlQuoted (processQuotes (processCodeBlocks
            ("[code]".toList ++ c ++ "[/code]".toList))))
          ("b".toList) ("**".toList) ("**".toList))
          ("i".toList) ("*".toList) ("*".toList))
          ("u".toList) ("<u>".toList) ("</u>".toList))
          ("s".toList) ("~~".toList) ("~~".toList))
          ("strike".toList) ("~~".toList) ("~~".toList))))
    = "\n```\n".toList ++ trimSpace c ++ "\n```\n".toList
  rw [processCodeBlocks_fence hbr, processQuotes_id hfence_br,
    scanPass_id (fun s hs => matchUrlQuoted_none hs) hfence_br,
    processFormattingTag_id hfence_br, processFormattingTag_id hfence_br,
    processFormattingTag_id hfence_br, processFormattingTag_id hfence_br,
    processFormattingTag_id hfence_br, applySimpleReplacements_id hfence_br,
    cleanupUnhandledTags_id hfence_br, finalCleanup_fence ht_nl]

/-- Witness for C4 (amended) at concrete code content. -/
theorem code_region_verbatim_witness :
    toMarkdown ("[code]x=1[/code]".toList)
      = "\n```\n".toList ++ trimSpace ("x=1".toList) ++ "\n```\n".toList := by
  have h := code_region_verbatim_when_benign ("x=1".toList) (by decide) (by decide)
  rw [show ("[code]".toList ++ "x=1".toList ++ "[/code]".toList : Str)
    = "[code]x=1[/code]".toList from by decide] at h
  exact h

end XFGH
